import Mathlib

/-!
Shallow embedding of the out-of-order pipeline simulator
(`src/HW1/cpusim/src/{arch_modules.rs, architecture.rs, main.rs}`).

Conventions of the embedding:
* `u8`/`u32`/`u64` values are `Nat`; where the Rust arithmetic can overflow
  (the `add`/`mulu` results in `ALU::compute`), the embedding returns `none`,
  modelling the debug-profile overflow panic.
* The Rust fixed-size tables (`busy_bit_table`, `physical_register_file`,
  `register_map_table`) are modelled as total functions `Nat → _`; the
  indices used by the simulator stay inside the table bounds.
* Fallible operations (panics: `expect`, `unwrap`, `Vec::remove` on an empty
  vector, latching a busy ALU, an unknown opcode in `ALU::compute`) are
  modelled with `Option`: `none` means the Rust program panics.
* The driver's instruction stream is a Rust `Vec` popped from the back, after
  `main` reversed the parsed program; the embedding keeps the list in pop
  order, so the head of the list is the next instruction to fetch.
-/

/-- Pointwise update of a table modelled as a total function. -/
def updateFn (f : Nat → α) (i : Nat) (v : α) : Nat → α :=
  fun j => if j = i then v else f j

/-! ## arch_modules.rs -/

def ALLOWED_OP_CODES : List String := ["add", "sub", "mulu", "divu", "remu"]

def IMMEDIATE_OP_CODES : List String := ["addi"]

structure ActiveListEntry where
  is_done : Bool
  is_exception : Bool
  logical_destination : Nat
  old_destination : Nat
  pc : Nat
deriving DecidableEq, Repr

structure IntegerQueueEntry where
  dest_register : Nat
  op_a_is_ready : Bool
  op_a_reg_tag : Nat
  op_a_value : Nat
  op_b_is_ready : Bool
  op_b_reg_tag : Nat
  op_b_value : Nat
  op_code : String
  pc : Nat
deriving DecidableEq, Repr

def IntegerQueueEntry.is_ready (e : IntegerQueueEntry) : Bool :=
  e.op_a_is_ready && e.op_b_is_ready

structure ALUEntry where
  dest_register : Nat
  op_a_value : Nat
  op_b_value : Nat
  op_code : String
  pc : Nat
deriving DecidableEq, Repr

structure CommitBufferEntry where
  dest_register : Nat
  value : Nat
  pc : Nat
deriving DecidableEq, Repr

structure ALU where
  stage1 : Option ALUEntry
  stage2 : Option ALUEntry
  is_forwarding : Bool
  forwarding_reg : Nat
  forwarding_value : Nat
  forwarding_pc : Nat
  forwarding_exception : Bool
deriving DecidableEq, Repr

def ALU.new : ALU :=
  { stage1 := none
    stage2 := none
    is_forwarding := false
    forwarding_reg := 0
    forwarding_value := 0
    forwarding_pc := 0
    forwarding_exception := false }

def ALU.is_busy (a : ALU) : Bool := a.stage1.isSome

/-- `ALU::latch`; `none` models the panic when stage 1 is occupied. -/
def ALU.latch (a : ALU) (entry : IntegerQueueEntry) : Option ALU :=
  if !a.is_busy then
    some { a with stage1 := some ⟨entry.dest_register, entry.op_a_value,
      entry.op_b_value, entry.op_code, entry.pc⟩ }
  else none

/-- `ALU::compute`: the computed value together with the Bool saying whether
this computation raises the forwarding exception flag.  `none` models the
panics (unknown opcode; debug-profile overflow of `add`/`mulu`). -/
def ALU.compute (e : ALUEntry) : Option (Nat × Bool) :=
  if e.op_code = "add" then
    if e.op_a_value + e.op_b_value < 2 ^ 64 then
      some (e.op_a_value + e.op_b_value, false)
    else none
  else if e.op_code = "sub" then
    if e.op_a_value < e.op_b_value then some (0, true)
    else some (e.op_a_value - e.op_b_value, false)
  else if e.op_code = "mulu" then
    if e.op_a_value * e.op_b_value < 2 ^ 64 then
      some (e.op_a_value * e.op_b_value, false)
    else none
  else if e.op_code = "divu" then
    if e.op_b_value = 0 then some (0, true)
    else some (e.op_a_value / e.op_b_value, false)
  else if e.op_code = "remu" then
    if e.op_b_value = 0 then some (0, true)
    else some (e.op_a_value % e.op_b_value, false)
  else none

/-- `ALU::update_forwarding`: reads the freshly filled stage 2 and refreshes
the forwarding port.  `compute` only ever sets the exception flag, so the new
flag is the old flag ORed with the flag raised by this computation. -/
def ALU.update_forwarding (a : ALU) : Option ALU :=
  match a.stage2 with
  | none => none
  | some e =>
    match ALU.compute e with
    | none => none
    | some (v, exc) =>
      some { a with
        is_forwarding := true
        forwarding_reg := e.dest_register
        forwarding_pc := e.pc
        forwarding_value := v
        forwarding_exception := a.forwarding_exception || exc }

/-- `ALU::execute`: clear stage 2, move stage 1 into stage 2 and, when stage 2
is now occupied, refresh the forwarding port. -/
def ALU.execute (a : ALU) : Option ALU :=
  match a.stage1 with
  | some _ =>
    ALU.update_forwarding { a with stage2 := a.stage1, stage1 := none }
  | none => some { a with stage2 := none }

/-- Modelled from the spec: `ALU::reset` is invoked by
`Processor::reset_alus` in architecture.rs but its definition is not among
the sources under src/.  Per spec section 4.2 it clears both stages and
deasserts forwarding; all ports return to their initial values. -/
def ALU.reset (_ : ALU) : ALU := ALU.new

structure DecodedInstruction where
  pc : Nat
  op_code : String
  immediate : Bool
  logical_destination : Nat
  op_a_reg_tag : Nat
  op_b_reg_tag : Nat
  immediate_value : Nat
deriving DecidableEq, Repr

structure Instruction where
  value : String
deriving DecidableEq, Repr

/-- Accumulates the decimal digits of a character list into a number. -/
def digitsToNat (cs : List Char) : Nat :=
  cs.foldl (fun acc c => acc * 10 + (c.toNat - 48)) 0

/-- Rust `str::parse::<uN>` for an unsigned integer type with maximum value
`bound`: an optional leading plus sign, then one or more ASCII digits, with
values above `bound` rejected as overflow.  Works on the character list of
the string (Lean's opaque `String` primitives do not reduce in the kernel;
the character-level definitions are semantically the same functions). -/
def parseUnsigned (bound : Nat) (cs : List Char) : Option Nat :=
  let t := match cs with
    | '+' :: rest => rest
    | _ => cs
  if t.isEmpty then none
  else if !(t.all Char.isDigit) then none
  else if digitsToNat t ≤ bound then some (digitsToNat t) else none

/-- `Instruction::parse_register`: slices `reg_str[1..]` and parses it as a
`u8`.  The Rust byte slice panics (modelled as `none`) when byte index 1 is
not a character boundary: on the empty string (index out of bounds) and when
the first character occupies more than one UTF-8 byte (code point ≥ 0x80).
Otherwise slicing off the first byte is exactly dropping the first
character. -/
def Instruction.parse_register (reg_str : String) :
    Option (Except String Nat) :=
  match reg_str.data with
  | [] => none
  | c :: rest =>
    if 128 ≤ c.toNat then none
    else
      match parseUnsigned 255 rest with
      | some n => some (Except.ok n)
      | none => some (Except.error ("Invalid register identifier"))

/-- Rust `char::is_whitespace`: the Unicode `White_Space` property, i.e.
U+0009–U+000D, U+0020, U+0085, U+00A0, U+1680, U+2000–U+200A, U+2028,
U+2029, U+202F, U+205F and U+3000 (Lean's `Char.isWhitespace` covers only
the four ASCII cases and would be unfaithful). -/
def isRustWhitespace (c : Char) : Bool :=
  (9 ≤ c.toNat && c.toNat ≤ 13) || c.toNat = 32 || c.toNat = 133 ||
  c.toNat = 160 || c.toNat = 5760 || (8192 ≤ c.toNat && c.toNat ≤ 8202) ||
  c.toNat = 8232 || c.toNat = 8233 || c.toNat = 8239 || c.toNat = 8287 ||
  c.toNat = 12288

/-- Splits a character list at whitespace, discarding empty fragments: Rust
`split_whitespace`.  The first argument accumulates the current token in
reverse. -/
def splitWhitespaceAux : List Char → List Char → List (List Char)
  | acc, [] => if acc.isEmpty then [] else [acc.reverse]
  | acc, c :: cs =>
    if isRustWhitespace c then
      if acc.isEmpty then splitWhitespaceAux [] cs
      else acc.reverse :: splitWhitespaceAux [] cs
    else splitWhitespaceAux (c :: acc) cs

/-- The token list of an instruction string: commas removed (Rust
`replace(",", "")` with a one-character pattern is a character filter), then
split on whitespace discarding empty tokens (Rust `split_whitespace`). -/
def instructionTokens (s : String) : List String :=
  (splitWhitespaceAux [] (s.data.filter (fun c => c ≠ ','))).map String.mk

/-- `Instruction::decode`.  The outer `Option` is the panic of
`parse_register`'s byte slice; the `Except` carries the `Result` errors. -/
def Instruction.decode (i : Instruction) (pc : Nat) :
    Option (Except String DecodedInstruction) :=
  match instructionTokens i.value with
  | [p0, p1, p2, p3] =>
    if !(ALLOWED_OP_CODES.contains
        (if IMMEDIATE_OP_CODES.contains p0 then "add" else p0)) then
      some (Except.error ("Invalid op code"))
    else
      match Instruction.parse_register p1 with
      | none => none
      | some (Except.error e) => some (Except.error e)
      | some (Except.ok logical_destination) =>
        match Instruction.parse_register p2 with
        | none => none
        | some (Except.error e) => some (Except.error e)
        | some (Except.ok op_a_reg_tag) =>
          if IMMEDIATE_OP_CODES.contains p0 then
            match parseUnsigned 4294967295 p3.data with
            | some immediate_value =>
              some (Except.ok ⟨pc, "add", true, logical_destination,
                op_a_reg_tag, 0, immediate_value⟩)
            | none => some (Except.error ("Invalid immediate value"))
          else
            match Instruction.parse_register p3 with
            | none => none
            | some (Except.error e) => some (Except.error e)
            | some (Except.ok op_b_reg_tag) =>
              some (Except.ok ⟨pc, p0, false, logical_destination,
                op_a_reg_tag, op_b_reg_tag, 0⟩)
  | _ => some (Except.error ("Invalid instruction format"))

/-! ## architecture.rs -/

def INITIAL_PC : Nat := 0
def INITIAL_EXCEPTION_PC : Nat := 0
def INTEGER_QUEUE_SIZE : Nat := 32
def ACTIVE_LIST_SIZE : Nat := 32
def START_OF_FREE_REGISTER_LIST : Nat := 32
def END_OF_FREE_REGISTER_LIST : Nat := 64
def DECODED_BUFFER_SIZE : Nat := 4
def ALU_COUNT : Nat := 4
def EXCEPTION_PC : Nat := 65536

structure Processor where
  active_list : List ActiveListEntry
  busy_bit_table : Nat → Bool
  decoded_pcs : List Nat
  decoded_instructions : List DecodedInstruction
  exception_mode : Bool
  exception_pc : Nat
  free_list : List Nat
  integer_queue : List IntegerQueueEntry
  alus : List ALU
  commit_buffer : List CommitBufferEntry
  pc : Nat
  physical_register_file : Nat → Nat
  register_map_table : Nat → Nat

def Processor.new : Processor :=
  { active_list := [],
    busy_bit_table := fun _ => false,
    decoded_pcs := [],
    decoded_instructions := [],
    exception_mode := false,
    exception_pc := INITIAL_EXCEPTION_PC,
    free_list := (List.range (END_OF_FREE_REGISTER_LIST -
      START_OF_FREE_REGISTER_LIST)).map (· + START_OF_FREE_REGISTER_LIST),
    integer_queue := [],
    alus := List.replicate ALU_COUNT ALU.new,
    commit_buffer := [],
    pc := INITIAL_PC,
    physical_register_file := fun _ => 0,
    register_map_table := fun i => i }

def Processor.is_done (s : Processor) : Bool :=
  s.active_list.isEmpty && s.exception_mode == false

def Processor.map_register (s : Processor) (logical_register : Nat) : Nat :=
  s.register_map_table logical_register

def Processor.register_is_ready (s : Processor) (register : Nat) : Bool :=
  s.busy_bit_table register == false

def Processor.set_busy (s : Processor) (register : Nat) : Processor :=
  { s with busy_bit_table := updateFn s.busy_bit_table register true }

def Processor.set_free (s : Processor) (register : Nat) : Processor :=
  { s with busy_bit_table := updateFn s.busy_bit_table register false }

def Processor.reset_alus (s : Processor) : Processor :=
  { s with alus := s.alus.map ALU.reset }

def Processor.reset_integer_queue (s : Processor) : Processor :=
  { s with integer_queue := [] }

/-- `Processor::set_exception_mode`. -/
def Processor.set_exception_mode (s : Processor) (pc : Nat) : Processor :=
  Processor.reset_integer_queue (Processor.reset_alus
    { s with exception_mode := true, exception_pc := pc })

/-- `Processor::commit_entry`: looks up the buffered forwarded value for the
entry's pc, writes it to the physical register file and clears the busy bit
of the destination register.  `none` models the `unwrap` panic when no
commit-buffer entry matches. -/
def Processor.commit_entry (s : Processor) (entry : ActiveListEntry) :
    Option Processor :=
  match s.commit_buffer.find? (fun x => x.pc == entry.pc) with
  | none => none
  | some buffer_entry =>
    some ((Processor.set_free
      { s with
        physical_register_file :=
          updateFn s.physical_register_file
            buffer_entry.dest_register buffer_entry.value })
      buffer_entry.dest_register)

/-- The per-entry marking performed by the loop in
`Processor::update_active_list`: an entry whose pc matches the forwarding pc
is marked done, and additionally marked excepting when the forwarded result
carries an exception. -/
def markEntry (fwd_pc : Nat) (fwd_exc : Bool) (e : ActiveListEntry) :
    ActiveListEntry :=
  if e.pc = fwd_pc then
    if fwd_exc then { e with is_done := true, is_exception := true }
    else { e with is_done := true }
  else e

/-- `Processor::update_active_list`: mark the matching entries, push a
commit-buffer record for each non-excepting match, then run `commit_entry`
on each collected entry. -/
def Processor.update_active_list (s : Processor) (alu : ALU) :
    Option Processor :=
  let matched := s.active_list.filter (fun e => e.pc == alu.forwarding_pc)
  let to_commit_entries := if alu.forwarding_exception then []
    else matched.map (fun e => { e with is_done := true })
  let pushes := if alu.forwarding_exception then []
    else matched.map (fun e =>
      CommitBufferEntry.mk alu.forwarding_reg alu.forwarding_value e.pc)
  let s1 := { s with
    active_list := s.active_list.map
      (markEntry alu.forwarding_pc alu.forwarding_exception),
    commit_buffer := s.commit_buffer ++ pushes }
  to_commit_entries.foldlM Processor.commit_entry s1

/-- `Processor::read_active_list_fwd_paths`: poll every ALU (the Rust code
iterates over a clone of `self.alus`, which none of the updates touch). -/
def Processor.read_active_list_fwd_paths (s : Processor) : Option Processor :=
  s.alus.foldlM
    (fun st alu =>
      if alu.is_forwarding then st.update_active_list alu else pure st) s

/-- `Processor::any_alu_exception`. -/
def Processor.any_alu_exception (s : Processor) : Bool :=
  s.alus.any (fun alu => alu.forwarding_exception)

/-- The loop body of `Processor::update_integer_queue` for one queue entry:
an operand that is not ready and whose tag matches the forwarded register
becomes ready with the forwarded value, its tag cleared to 0. -/
def updateIQEntry (forwarding_reg forwarding_value : Nat)
    (e : IntegerQueueEntry) : IntegerQueueEntry :=
  let e1 := if !e.op_a_is_ready && e.op_a_reg_tag == forwarding_reg then
      { e with
        op_a_is_ready := true
        op_a_value := forwarding_value
        op_a_reg_tag := 0 }
    else e
  if !e1.op_b_is_ready && e1.op_b_reg_tag == forwarding_reg then
    { e1 with
      op_b_is_ready := true
      op_b_value := forwarding_value
      op_b_reg_tag := 0 }
  else e1

/-- `Processor::update_integer_queue`. -/
def Processor.update_integer_queue (s : Processor)
    (forwarding_reg forwarding_value : Nat) : Processor :=
  { s with integer_queue :=
      s.integer_queue.map (updateIQEntry forwarding_reg forwarding_value) }

/-- `Processor::read_integer_queue_fwd_paths`. -/
def Processor.read_integer_queue_fwd_paths (s : Processor) : Processor :=
  s.alus.foldl
    (fun st alu =>
      if alu.is_forwarding then
        st.update_integer_queue alu.forwarding_reg alu.forwarding_value
      else st) s

/-- `Processor::get_operand_info`. -/
def Processor.get_operand_info (s : Processor) (reg_tag : Nat)
    (is_immediate : Bool) : Nat × Bool :=
  if is_immediate then (0, true)
  else
    let physical_reg_tag := s.map_register reg_tag
    let is_ready := s.register_is_ready physical_reg_tag
    (if is_ready then 0 else physical_reg_tag, is_ready)

/-- `Processor::get_operand_b_value`. -/
def Processor.get_operand_b_value (s : Processor) (d : DecodedInstruction)
    (physical_op_b_reg_tag : Nat) : Nat :=
  if d.immediate then d.immediate_value
  else s.physical_register_file physical_op_b_reg_tag

/-- `Processor::get_next_free_register` combined with
`Processor::map_destination_register`: pops the free-list head (`none`
models the `Vec::remove(0)` panic on an empty list), maps the logical
destination to it and sets its busy bit. -/
def Processor.map_destination_register (s : Processor) (logical_dest : Nat) :
    Option (Nat × Processor) :=
  match s.free_list with
  | [] => none
  | p :: rest =>
    some (p, Processor.set_busy
      { s with
        free_list := rest
        register_map_table := updateFn s.register_map_table logical_dest p } p)

/-- `Processor::add_integer_queue_entry` (reads operand values from
`current_state`, the previous-cycle snapshot). -/
def Processor.add_integer_queue_entry (s : Processor)
    (current_state : Processor) (d : DecodedInstruction) : Option Processor :=
  let a := s.get_operand_info d.op_a_reg_tag false
  let b := s.get_operand_info d.op_b_reg_tag d.immediate
  match s.map_destination_register d.logical_destination with
  | none => none
  | some (physical_dest_register, s1) =>
    some { s1 with integer_queue := s1.integer_queue ++
      [⟨physical_dest_register, a.2, a.1,
        current_state.physical_register_file a.1, b.2, b.1,
        current_state.get_operand_b_value d b.1, d.op_code, d.pc⟩] }

/-- `Processor::add_active_list_entry`. -/
def Processor.add_active_list_entry (s : Processor)
    (d : DecodedInstruction) : Processor :=
  { s with active_list := s.active_list ++
      [⟨false, false, d.logical_destination,
        s.map_register d.logical_destination, d.pc⟩] }

/-- `Processor::has_sufficient_resources`. -/
def Processor.has_sufficient_resources (s : Processor) : Bool :=
  decide (s.free_list.length ≥ DECODED_BUFFER_SIZE) &&
  decide (s.active_list.length + DECODED_BUFFER_SIZE ≤ ACTIVE_LIST_SIZE) &&
  decide (s.integer_queue.length + DECODED_BUFFER_SIZE ≤ INTEGER_QUEUE_SIZE)

/-- `Processor::clear_decoded_instructions`. -/
def Processor.clear_decoded_instructions (s : Processor) : Processor :=
  { s with decoded_instructions := [], decoded_pcs := [] }

/-- The dispatch loop inside `Processor::rename_and_dispatch`: for each
decoded instruction, add an active-list entry and an integer-queue entry. -/
def Processor.dispatch_loop (s : Processor) (current_state : Processor)
    (ds : List DecodedInstruction) : Option Processor :=
  ds.foldlM
    (fun st d => (st.add_active_list_entry d).add_integer_queue_entry
      current_state d) s

/-- `Processor::rename_and_dispatch`; the Bool is the backpressure signal. -/
def Processor.rename_and_dispatch (s : Processor)
    (current_state : Processor) : Option (Processor × Bool) :=
  if !s.has_sufficient_resources then some (s, true)
  else
    match s.dispatch_loop current_state current_state.decoded_instructions with
    | none => none
    | some s1 => some (s1.clear_decoded_instructions, false)

/-- The scan loop of `Processor::commit` over (a clone of) the active list:
retire at most `DECODED_BUFFER_SIZE` done entries in order, recording the
pcs to remove, or enter exception mode at the first excepting entry. -/
def commitScan : List ActiveListEntry → Nat → Processor → List Nat →
    Processor × List Nat
  | [], _, s, pcs => (s, pcs)
  | e :: rest, retired, s, pcs =>
    if retired = DECODED_BUFFER_SIZE then (s, pcs)
    else if e.is_exception then (s.set_exception_mode e.pc, pcs)
    else if e.is_done then
      commitScan rest (retired + 1)
        { s with free_list := s.free_list ++ [e.old_destination] }
        (pcs ++ [e.pc])
    else (s, pcs)

/-- The removal loop shared by `commit` and `rollback`: for each recorded pc,
retain only the active-list and commit-buffer entries with a different pc. -/
def removePcs (pcs : List Nat) (s : Processor) : Processor :=
  pcs.foldl
    (fun st pc => { st with
      active_list := st.active_list.filter (fun x => x.pc ≠ pc),
      commit_buffer := st.commit_buffer.filter (fun x => x.pc ≠ pc) }) s

/-- The scan loop of `Processor::rollback` over the reversed active list:
roll back at most `DECODED_BUFFER_SIZE` entries from the youngest end.  For
each entry the currently mapped physical register of its logical destination
is freed and pushed to the free-list tail, and the mapping is restored to the
entry's old destination. -/
def rollbackScan : List ActiveListEntry → Nat → Processor → List Nat →
    Processor × List Nat
  | [], _, s, pcs => (s, pcs)
  | e :: rest, rolled_back, s, pcs =>
    if rolled_back = DECODED_BUFFER_SIZE then (s, pcs)
    else
      let allocated_register := s.map_register e.logical_destination
      rollbackScan rest (rolled_back + 1)
        { (s.set_free allocated_register) with
          free_list := s.free_list ++ [allocated_register],
          register_map_table := updateFn s.register_map_table
            e.logical_destination e.old_destination }
        (pcs ++ [e.pc])

/-- `Processor::rollback`. -/
def Processor.rollback (s : Processor) : Processor :=
  removePcs (rollbackScan s.active_list.reverse 0 s []).2
    (rollbackScan s.active_list.reverse 0 s []).1

/-- `Processor::commit`. -/
def Processor.commit (s : Processor) : Option Processor :=
  if s.exception_mode then
    some (if s.active_list.isEmpty then { s with exception_mode := false }
      else s).rollback
  else
    (removePcs (commitScan s.active_list 0 s []).2
      (commitScan s.active_list 0 s []).1).read_active_list_fwd_paths

/-- Stable insertion into a pc-sorted list: the inserted entry goes in front
of the first entry whose pc is not smaller, i.e. behind all strictly smaller
and in front of equal pcs coming later in the fold. -/
def insertByPc (e : IntegerQueueEntry) : List IntegerQueueEntry →
    List IntegerQueueEntry
  | [] => [e]
  | x :: xs => if e.pc ≤ x.pc then e :: x :: xs else x :: insertByPc e xs

/-- Stable ascending sort of the queue by pc, as performed by Rust's stable
`sort_by(|a, b| a.pc.cmp(&b.pc))`.  A stable sort under a fixed total
preorder is extensionally unique, so this structurally recursive insertion
sort computes exactly the Rust result. -/
def sortByPc (l : List IntegerQueueEntry) : List IntegerQueueEntry :=
  l.foldr insertByPc []

/-- `Processor::find_oldest_ready_instruction`: stable-sort a clone of the
queue by pc, pick the first ready entry, and remove every queue entry with
its pc. -/
def Processor.find_oldest_ready_instruction (s : Processor) :
    Option (IntegerQueueEntry × Processor) :=
  match (sortByPc s.integer_queue).find? (fun e => e.is_ready) with
  | some entry =>
    some (entry, { s with integer_queue :=
      s.integer_queue.filter (fun x => x.pc ≠ entry.pc) })
  | none => none

/-- The ALU walk inside `Processor::issue_instruction`: latch the entry into
the first non-busy ALU (the guarded `ALU::latch` cannot panic, but the
Option is threaded through faithfully); when every ALU is busy the entry is
dropped. -/
def latchFirstFree (entry : IntegerQueueEntry) : List ALU → Option (List ALU)
  | [] => some []
  | a :: rest =>
    if !a.is_busy then (a.latch entry).map (· :: rest)
    else (latchFirstFree entry rest).map (a :: ·)

/-- `Processor::issue_instruction`. -/
def Processor.issue_instruction (s : Processor) : Option Processor :=
  match s.find_oldest_ready_instruction with
  | some r =>
    match latchFirstFree r.1 r.2.alus with
    | some als => some { r.2 with alus := als }
    | none => none
  | none => some s

/-- `Processor::issue`: suppressed entirely when any ALU reports an incoming
exception; otherwise absorb forwarding into the queue, advance every ALU one
stage, then issue up to `ALU_COUNT` ready instructions. -/
def Processor.issue (s : Processor) : Option Processor :=
  if s.any_alu_exception then some s
  else
    match (s.read_integer_queue_fwd_paths).alus.mapM ALU.execute with
    | none => none
    | some als =>
      match ({ s.read_integer_queue_fwd_paths with alus := als } :
          Processor).issue_instruction with
      | none => none
      | some s3 =>
        match s3.issue_instruction with
        | none => none
        | some s4 =>
          match s4.issue_instruction with
          | none => none
          | some s5 => s5.issue_instruction

/-- The fetch loop of `Processor::fetch_and_decode`: while the decoded buffer
holds fewer than `DECODED_BUFFER_SIZE` instructions and the stream is
nonempty, pop the next instruction, decode it at the current pc (`none`
models the `expect` panic on a decode error) and advance the pc. -/
def fetchLoop : Processor → List Instruction →
    Option (Processor × List Instruction)
  | s, [] => some (s, [])
  | s, instr :: rest =>
    if s.decoded_instructions.length < DECODED_BUFFER_SIZE then
      match instr.decode s.pc with
      | some (Except.ok d) =>
        fetchLoop
          { s with
            decoded_pcs := s.decoded_pcs ++ [s.pc]
            decoded_instructions := s.decoded_instructions ++ [d]
            pc := s.pc + 1 } rest
      | some (Except.error _) => none
      | none => none
    else some (s, instr :: rest)

/-- `Processor::fetch_and_decode`. -/
def Processor.fetch_and_decode (s : Processor)
    (instructions : List Instruction) (backpressure : Bool) :
    Option (Processor × List Instruction) :=
  if backpressure then some (s, instructions)
  else if s.exception_mode then
    some ({ s.clear_decoded_instructions with pc := EXCEPTION_PC },
      instructions)
  else fetchLoop s instructions

/-- `Processor::propagate`: one cycle.  Returns the next-cycle state and the
remaining instruction stream. -/
def Processor.propagate (s : Processor) (instructions : List Instruction) :
    Option (Processor × List Instruction) :=
  match s.commit with
  | none => none
  | some next1 =>
    if !next1.exception_mode then
      match next1.issue with
      | none => none
      | some ni =>
        match ni.rename_and_dispatch s with
        | none => none
        | some r => r.1.fetch_and_decode instructions r.2
    else next1.fetch_and_decode instructions false

/-! ## main.rs (driver) -/

def MAX_CYCLES : Nat := 50

/-- Modelled from the spec: `ProcessorState::active_list_is_empty` is called
by the driver loop in main.rs but is not defined among the sources under
src/.  Per the spec's termination clause (section 4.4) the driver keeps
cycling while the Active List is nonempty or Exception Mode is set, so the
missing method is modelled as `active_list.isEmpty && !exception_mode`,
which coincides with `Processor::is_done` in architecture.rs. -/
def Processor.active_list_is_empty (s : Processor) : Bool :=
  s.active_list.isEmpty && !s.exception_mode

/-- The continuation condition of the driver loop in `main`: keep cycling
while the instruction stream or the processor is not drained, and the cycle
cap has not been hit (the state log holds one snapshot per completed cycle
plus the initial snapshot). -/
def driverContinues (instructions : List Instruction) (s : Processor)
    (state_log : List Processor) : Bool :=
  !(instructions.isEmpty && s.active_list_is_empty) &&
    decide (state_log.length < MAX_CYCLES)

/-! ## Concrete states used by witnesses and counterexamples -/

/-- The forwarding state `ALU::execute` produces when stage 1 held `e` and
the computation yields value `v`, raising (`exc` = true) or not raising the
exception condition: the new exception flag is the OLD flag ORed with the
condition, because `ALU::compute` only ever sets the flag. -/
def ALU.forwardedWith (a : ALU) (e : ALUEntry) (v : Nat) (exc : Bool) : ALU :=
  { a with
    stage1 := none
    stage2 := some e
    is_forwarding := true
    forwarding_reg := e.dest_register
    forwarding_pc := e.pc
    forwarding_value := v
    forwarding_exception := a.forwarding_exception || exc }

/-- A non-excepting `add` sitting in stage 1 of an ALU whose exception flag
is already set (as `compute` leaves it after any earlier excepting op). -/
def c3_entry : ALUEntry := ⟨7, 1, 2, "add", 9⟩

def c3_alu : ALU :=
  { ALU.new with stage1 := some c3_entry, forwarding_exception := true }

/-- An idle ALU (both stages empty) whose forwarding port is still asserted
from an earlier cycle. -/
def c7_alu : ALU :=
  { ALU.new with
    is_forwarding := true
    forwarding_reg := 33
    forwarding_value := 11
    forwarding_pc := 5 }

def c10_alu : ALU := { ALU.new with forwarding_exception := true }

def c10_iq_entry : IntegerQueueEntry := ⟨33, true, 0, 4, true, 0, 5, "add", 1⟩

def c10_latched : ALU :=
  { c10_alu with stage1 := some ⟨33, 4, 5, "add", 1⟩ }

def c10_proc : Processor :=
  { Processor.new with alus := [c10_alu, ALU.new, ALU.new, ALU.new] }

/-! ## Theorems -/

/-- The cumulative effect of `read_integer_queue_fwd_paths` on one queue
entry: fold the per-ALU update over the forwarding ALUs. -/
def absorbEntry (alus : List ALU) (e : IntegerQueueEntry) : IntegerQueueEntry :=
  alus.foldl
    (fun e alu =>
      if alu.is_forwarding then
        updateIQEntry alu.forwarding_reg alu.forwarding_value e
      else e) e

/-- Queue entry with both operands pending, used by the C8 witness. -/
def c8_entry : IntegerQueueEntry := ⟨40, false, 5, 0, false, 6, 0, "add", 3⟩

/-- Equality of all processor fields except the integer queue and the ALUs —
the only fields the Issue stage may write. -/
def EqExceptIQAlus (a b : Processor) : Prop :=
  b.active_list = a.active_list ∧
  b.busy_bit_table = a.busy_bit_table ∧
  b.decoded_pcs = a.decoded_pcs ∧
  b.decoded_instructions = a.decoded_instructions ∧
  b.exception_mode = a.exception_mode ∧
  b.exception_pc = a.exception_pc ∧
  b.free_list = a.free_list ∧
  b.commit_buffer = a.commit_buffer ∧
  b.pc = a.pc ∧
  b.physical_register_file = a.physical_register_file ∧
  b.register_map_table = a.register_map_table

/-- Equality of the processor fields that the dispatch loop never writes
(it writes the active list, integer queue, free list, busy bits and map
table). -/
def DispatchFrame (a b : Processor) : Prop :=
  b.decoded_pcs = a.decoded_pcs ∧
  b.decoded_instructions = a.decoded_instructions ∧
  b.exception_mode = a.exception_mode ∧
  b.exception_pc = a.exception_pc ∧
  b.alus = a.alus ∧
  b.commit_buffer = a.commit_buffer ∧
  b.pc = a.pc ∧
  b.physical_register_file = a.physical_register_file

/-- ALU with asserted non-excepting forwarding for pc 0, register 32. -/
def c1_alu : ALU :=
  { ALU.new with
    is_forwarding := true
    forwarding_reg := 32
    forwarding_value := 5
    forwarding_pc := 0 }

/-- A processor whose only active-list entry (pc 0) is still in flight while
ALU 0 forwards its value this cycle. -/
def c1_state : Processor :=
  { Processor.new with
    active_list := [⟨false, false, 1, 1, 0⟩]
    alus := [c1_alu, ALU.new, ALU.new, ALU.new]
    busy_bit_table := updateFn (fun _ => false) 32 true }

/-- A processor whose only active-list entry (pc 0) is done, with its
buffered write pending, and no ALU forwarding. -/
def c1r_state : Processor :=
  { Processor.new with
    active_list := [⟨true, false, 1, 1, 0⟩]
    commit_buffer := [⟨32, 5, 0⟩] }

/-- A processor with an empty free list whose single active-list entry is
ready to retire: the same cycle both retires it (changing the Active List
and the Free List) and asserts backpressure in Rename & Dispatch. -/
def c5_state : Processor :=
  { Processor.new with
    active_list := [⟨true, false, 1, 40, 0⟩]
    free_list := [] }

/-- Cycle-end state of a run that entered Exception Mode and whose rollback
has just drained the Active List. -/
def c2_state : Processor :=
  { Processor.new with
    exception_mode := true
    exception_pc := 2
    pc := 65536 }

/-- The per-entry state update of the rollback scan (the loop body of
`Processor::rollback` without the removal bookkeeping): free the currently
mapped physical register of the entry's logical destination, push it to the
free-list tail and restore the mapping to the entry's old destination. -/
def rollbackCore (s : Processor) (e : ActiveListEntry) : Processor :=
  { (s.set_free (s.map_register e.logical_destination)) with
    free_list := s.free_list ++ [s.map_register e.logical_destination]
    register_map_table := updateFn s.register_map_table
      e.logical_destination e.old_destination }

/-- Folding the rollback update over a list of entries (youngest first when
given the reversed active list). -/
def rollbackEntries (s : Processor) (l : List ActiveListEntry) : Processor :=
  l.foldl rollbackCore s

/-- Iterating whole rollback cycles until the active list has drained. -/
def rollbackDrain (s : Processor) : Processor :=
  Processor.rollback^[s.active_list.length] s

/-- The decoded form of `addi x1, x0, 5`, dispatched by the C6 witness. -/
def c6_d : DecodedInstruction := ⟨0, "add", true, 1, 0, 0, 5⟩

/-- The processor state after dispatching `c6_d` onto the initial state. -/
def c6_s1 : Processor :=
  { Processor.new with
    active_list := [⟨false, false, 1, 1, 0⟩]
    integer_queue := [⟨32, true, 0, 0, true, 0, 5, "add", 0⟩]
    free_list := Processor.new.free_list.drop 1
    register_map_table := updateFn Processor.new.register_map_table 1 32
    busy_bit_table := updateFn Processor.new.busy_bit_table 32 true }

/-- States reachable from the initial processor by any sequence of cycles,
with an arbitrary instruction stream offered at each cycle. -/
inductive Reachable : Processor → Prop where
  | init : Reachable Processor.new
  | step {s s' : Processor} {instrs instrs' : List Instruction} :
      Reachable s → s.propagate instrs = some (s', instrs') → Reachable s'

/-- The inductive invariant for C4: active-list pcs strictly increase and
the list is bounded; outside exception mode the decoded buffer continues
the program order below the fetch pc; in exception mode the decoded buffer
is empty. -/
structure SimInv (s : Processor) : Prop where
  al_pw : (s.active_list.map (fun e => e.pc)).Pairwise (· < ·)
  al_len : s.active_list.length ≤ ACTIVE_LIST_SIZE
  dec_len : s.decoded_instructions.length ≤ DECODED_BUFFER_SIZE
  dec_pw : s.exception_mode = false →
    (s.decoded_instructions.map (fun d => d.pc)).Pairwise (· < ·)
  al_dec : s.exception_mode = false →
    ∀ a ∈ s.active_list.map (fun e => e.pc),
      ∀ b ∈ s.decoded_instructions.map (fun d => d.pc), a < b
  dec_pc : s.exception_mode = false →
    ∀ b ∈ s.decoded_instructions.map (fun d => d.pc), b < s.pc
  al_pc : s.exception_mode = false →
    ∀ a ∈ s.active_list.map (fun e => e.pc), a < s.pc
  exc_dec : s.exception_mode = true → s.decoded_instructions = []

/-- C3 (amended): for an ALU whose stage 1 holds an entry (which `execute`
moves to stage 2 and computes), the unit always completes the cycle and
asserts forwarding; the forwarded value is the exact result, or 0 under an
exception condition (`sub` with a < b, `divu`/`remu` with b = 0); the
forwarded exception flag is the PREVIOUS flag ORed with this computation's
exception condition — `compute` never clears the flag, so `exception =
false` is forwarded only when the flag was already clear. -/
theorem alu_stage2_semantics (a : ALU) (e : ALUEntry) (h : a.stage1 = some e) :
    (e.op_code = "add" → e.op_a_value + e.op_b_value < 2 ^ 64 →
      a.execute = some (a.forwardedWith e (e.op_a_value + e.op_b_value) false)) ∧
    (e.op_code = "sub" → e.op_b_value ≤ e.op_a_value →
      a.execute = some (a.forwardedWith e (e.op_a_value - e.op_b_value) false)) ∧
    (e.op_code = "sub" → e.op_a_value < e.op_b_value →
      a.execute = some (a.forwardedWith e 0 true)) ∧
    (e.op_code = "mulu" → e.op_a_value * e.op_b_value < 2 ^ 64 →
      a.execute = some (a.forwardedWith e (e.op_a_value * e.op_b_value) false)) ∧
    (e.op_code = "divu" → e.op_b_value ≠ 0 →
      a.execute = some (a.forwardedWith e (e.op_a_value / e.op_b_value) false)) ∧
    (e.op_code = "divu" → e.op_b_value = 0 →
      a.execute = some (a.forwardedWith e 0 true)) ∧
    (e.op_code = "remu" → e.op_b_value ≠ 0 →
      a.execute = some (a.forwardedWith e (e.op_a_value % e.op_b_value) false)) ∧
    (e.op_code = "remu" → e.op_b_value = 0 →
      a.execute = some (a.forwardedWith e 0 true)) := by
  refine ⟨?_, ?_, ?_, ?_, ?_, ?_, ?_, ?_⟩ <;> intro hop hcond
  · norm_num at hcond
    simp [ALU.execute, h, ALU.update_forwarding, ALU.compute, hop, hcond,
      ALU.forwardedWith]
  · simp [ALU.execute, h, ALU.update_forwarding, ALU.compute, hop,
      Nat.not_lt.mpr hcond, ALU.forwardedWith]
  · simp [ALU.execute, h, ALU.update_forwarding, ALU.compute, hop, hcond,
      ALU.forwardedWith]
  · norm_num at hcond
    simp [ALU.execute, h, ALU.update_forwarding, ALU.compute, hop, hcond,
      ALU.forwardedWith]
  · simp [ALU.execute, h, ALU.update_forwarding, ALU.compute, hop, hcond,
      ALU.forwardedWith]
  · simp [ALU.execute, h, ALU.update_forwarding, ALU.compute, hop, hcond,
      ALU.forwardedWith]
  · simp [ALU.execute, h, ALU.update_forwarding, ALU.compute, hop, hcond,
      ALU.forwardedWith]
  · simp [ALU.execute, h, ALU.update_forwarding, ALU.compute, hop, hcond,
      ALU.forwardedWith]

/-- C3 witness: the theorem applied to a fresh ALU holding `divu x, y, 0`. -/
theorem alu_stage2_semantics_witness :
    ({ ALU.new with stage1 := some ⟨3, 8, 0, "divu", 0⟩ } : ALU).execute =
      some (({ ALU.new with stage1 := some ⟨3, 8, 0, "divu", 0⟩ } : ALU).forwardedWith
        ⟨3, 8, 0, "divu", 0⟩ 0 true) :=
  (alu_stage2_semantics { ALU.new with stage1 := some ⟨3, 8, 0, "divu", 0⟩ }
    ⟨3, 8, 0, "divu", 0⟩ rfl).2.2.2.2.2.1 rfl rfl

/-- C3 counterexample: the claim says a non-excepting operation is forwarded
with `exception = false`; but on `c3_alu`, whose exception flag is still set
from an earlier computation, the `add` of 1 + 2 is forwarded with value 3
and `exception = true`. -/
theorem alu_add_forwarded_with_exception_true :
    c3_alu.stage1 = some ⟨7, 1, 2, "add", 9⟩ ∧
    (c3_alu.execute).map
      (fun r => (r.is_forwarding, r.forwarding_value, r.forwarding_exception)) =
      some (true, 3, true) := ⟨rfl, rfl⟩

/-- C7 (amended): an `execute()` step on an ALU with an empty stage 1 leaves
stage 2 empty but changes nothing else; in particular `is_forwarding`
retains its previous value rather than being deasserted. -/
theorem execute_idle_keeps_forwarding (a : ALU) (h : a.stage1 = none) :
    a.execute = some { a with stage2 := none } := by
  simp [ALU.execute, h]

/-- C7 witness: the amended theorem at `c7_alu`. -/
theorem execute_idle_keeps_forwarding_witness :
    c7_alu.execute = some { c7_alu with stage2 := none } :=
  execute_idle_keeps_forwarding c7_alu rfl

/-- C7 counterexample: the claim says the forwarding port is deasserted when
an `execute()` step leaves stage 2 empty; on `c7_alu` the step leaves both
stages empty yet `is_forwarding` is still true. -/
theorem execute_idle_forwarding_not_deasserted :
    (c7_alu.execute).map (fun r => (r.stage2, r.is_forwarding)) =
      some (none, true) := rfl

/-- C10: the forwarding exception flag is sticky.  `latch` and `execute`
never clear a set flag (so every later forwarded result carries
`exception = true`), `issue` is suppressed (a no-op) whenever any ALU's flag
is set, and only `reset` clears the flag. -/
theorem alu_exception_flag_sticky :
    (∀ (a : ALU) (e : IntegerQueueEntry) (a' : ALU),
      a.forwarding_exception = true → a.latch e = some a' →
      a'.forwarding_exception = true) ∧
    (∀ (a a' : ALU), a.forwarding_exception = true → a.execute = some a' →
      a'.forwarding_exception = true) ∧
    (∀ (a a' : ALU), a.forwarding_exception = true → a.execute = some a' →
      a'.is_forwarding = true → a'.forwarding_exception = true) ∧
    (∀ s : Processor, s.any_alu_exception = true → s.issue = some s) ∧
    (∀ a : ALU, (a.reset).forwarding_exception = false) := by
  refine ⟨?_, ?_, ?_, ?_, ?_⟩
  · intro a e a' hflag hl
    unfold ALU.latch at hl
    by_cases hb : a.is_busy = true
    · simp [hb] at hl
    · simp [Bool.not_eq_true] at hb
      simp [hb] at hl
      simp [← hl, hflag]
  · intro a a' hflag he
    unfold ALU.execute at he
    cases h1 : a.stage1 with
    | none => simp [h1] at he; simp [← he, hflag]
    | some e =>
      simp only [h1] at he
      unfold ALU.update_forwarding at he
      simp only at he
      cases hc : ALU.compute e with
      | none => simp [hc] at he
      | some ve => simp [hc] at he; simp [← he, hflag]
  · intro a a' hflag he _
    unfold ALU.execute at he
    cases h1 : a.stage1 with
    | none => simp [h1] at he; simp [← he, hflag]
    | some e =>
      simp only [h1] at he
      unfold ALU.update_forwarding at he
      simp only at he
      cases hc : ALU.compute e with
      | none => simp [hc] at he
      | some ve => simp [hc] at he; simp [← he, hflag]
  · intro s hexc
    simp [Processor.issue, hexc]
  · intro a
    simp [ALU.reset, ALU.new]

/-- C10 witness: the sticky flag through `latch`, `execute`, `issue` and
`reset` on concrete states. -/
theorem alu_exception_flag_sticky_witness :
    ((c10_alu.latch c10_iq_entry).map (fun r => r.forwarding_exception) =
      some true) ∧
    ((c10_latched.execute).map (fun r => r.forwarding_exception) =
      some true) ∧
    (c10_proc.issue = some c10_proc) ∧
    ((ALU.reset c10_alu).forwarding_exception = false) := by
  have h := alu_exception_flag_sticky
  refine ⟨?_, ?_, h.2.2.2.1 c10_proc rfl, h.2.2.2.2 c10_alu⟩
  · have h1 : c10_alu.latch c10_iq_entry = some c10_latched := rfl
    rw [h1]
    show some c10_latched.forwarding_exception = some true
    rw [h.1 c10_alu c10_iq_entry c10_latched rfl h1]
  · have h2 : c10_latched.execute = some (c10_latched.forwardedWith
      ⟨33, 4, 5, "add", 1⟩ 9 false) := rfl
    rw [h2]
    show some (c10_latched.forwardedWith
      ⟨33, 4, 5, "add", 1⟩ 9 false).forwarding_exception = some true
    rw [h.2.1 c10_latched _ rfl h2]

/-- C9 (amended): complete characterization of the decoder over the
faithful tokenizer (Unicode whitespace, commas removed).  `InvalidFormat`
iff the token count is not 4; `InvalidOpcode` iff the opcode (after mapping
`addi` to `add`) is not in the allowed set; a register token whose first
character is not a single UTF-8 byte (or which is empty) makes
`parse_register`'s byte slice panic, which decode propagates; otherwise
`InvalidRegister` iff the tail after the first byte fails to parse as a
`u8` — neither the leading `x` nor the 0..31 range is checked;
`InvalidImmediate` iff the `addi` immediate fails to parse as a `u32`;
otherwise success, with the checks performed in that order. -/
theorem decode_characterization (i : Instruction) (pc : Nat) :
    ((instructionTokens i.value).length ≠ 4 →
      i.decode pc = some (Except.error ("Invalid instruction format"))) ∧
    (∀ t : String,
      (t.data = [] → Instruction.parse_register t = none) ∧
      (∀ c rest, t.data = c :: rest →
        Instruction.parse_register t =
          if 128 ≤ c.toNat then none
          else match parseUnsigned 255 rest with
            | some n => some (Except.ok n)
            | none => some (Except.error ("Invalid register identifier")))) ∧
    (∀ p0 p1 p2 p3, instructionTokens i.value = [p0, p1, p2, p3] →
      (ALLOWED_OP_CODES.contains
          (if IMMEDIATE_OP_CODES.contains p0 then "add" else p0) = false →
        i.decode pc = some (Except.error ("Invalid op code"))) ∧
      (ALLOWED_OP_CODES.contains
          (if IMMEDIATE_OP_CODES.contains p0 then "add" else p0) = true →
        Instruction.parse_register p1 = none →
        i.decode pc = none) ∧
      (ALLOWED_OP_CODES.contains
          (if IMMEDIATE_OP_CODES.contains p0 then "add" else p0) = true →
        Instruction.parse_register p1 =
          some (Except.error ("Invalid register identifier")) →
        i.decode pc = some (Except.error ("Invalid register identifier"))) ∧
      (∀ d1, ALLOWED_OP_CODES.contains
          (if IMMEDIATE_OP_CODES.contains p0 then "add" else p0) = true →
        Instruction.parse_register p1 = some (Except.ok d1) →
        Instruction.parse_register p2 = none →
        i.decode pc = none) ∧
      (∀ d1, ALLOWED_OP_CODES.contains
          (if IMMEDIATE_OP_CODES.contains p0 then "add" else p0) = true →
        Instruction.parse_register p1 = some (Except.ok d1) →
        Instruction.parse_register p2 =
          some (Except.error ("Invalid register identifier")) →
        i.decode pc = some (Except.error ("Invalid register identifier"))) ∧
      (∀ d1 a1, IMMEDIATE_OP_CODES.contains p0 = true →
        Instruction.parse_register p1 = some (Except.ok d1) →
        Instruction.parse_register p2 = some (Except.ok a1) →
        parseUnsigned 4294967295 p3.data = none →
        i.decode pc = some (Except.error ("Invalid immediate value"))) ∧
      (∀ d1 a1 v, IMMEDIATE_OP_CODES.contains p0 = true →
        Instruction.parse_register p1 = some (Except.ok d1) →
        Instruction.parse_register p2 = some (Except.ok a1) →
        parseUnsigned 4294967295 p3.data = some v →
        i.decode pc = some (Except.ok ⟨pc, "add", true, d1, a1, 0, v⟩)) ∧
      (∀ d1 a1, IMMEDIATE_OP_CODES.contains p0 = false →
        ALLOWED_OP_CODES.contains p0 = true →
        Instruction.parse_register p1 = some (Except.ok d1) →
        Instruction.parse_register p2 = some (Except.ok a1) →
        Instruction.parse_register p3 = none →
        i.decode pc = none) ∧
      (∀ d1 a1, IMMEDIATE_OP_CODES.contains p0 = false →
        ALLOWED_OP_CODES.contains p0 = true →
        Instruction.parse_register p1 = some (Except.ok d1) →
        Instruction.parse_register p2 = some (Except.ok a1) →
        Instruction.parse_register p3 =
          some (Except.error ("Invalid register identifier")) →
        i.decode pc = some (Except.error ("Invalid register identifier"))) ∧
      (∀ d1 a1 b1, IMMEDIATE_OP_CODES.contains p0 = false →
        ALLOWED_OP_CODES.contains p0 = true →
        Instruction.parse_register p1 = some (Except.ok d1) →
        Instruction.parse_register p2 = some (Except.ok a1) →
        Instruction.parse_register p3 = some (Except.ok b1) →
        i.decode pc = some (Except.ok ⟨pc, p0, false, d1, a1, b1, 0⟩))) := by
  refine ⟨?_, ?_, ?_⟩
  · intro hlen
    unfold Instruction.decode
    rcases htok : instructionTokens i.value with _ | ⟨a, _ | ⟨b, _ | ⟨c, _ | ⟨d, _ | ⟨e, tl⟩⟩⟩⟩⟩ <;>
      simp [htok] at hlen ⊢
  · intro t
    constructor
    · intro h0
      unfold Instruction.parse_register
      rw [h0]
    · intro c rest hcr
      unfold Instruction.parse_register
      rw [hcr]
  · intro p0 p1 p2 p3 htok
    refine ⟨?_, ?_, ?_, ?_, ?_, ?_, ?_, ?_, ?_, ?_⟩
    · intro hop
      unfold Instruction.decode
      rw [htok]
      simp only [hop]
      simp
    · intro hop hp1
      unfold Instruction.decode
      rw [htok]
      simp only [hop, Bool.not_true, Bool.false_eq_true, if_false, hp1]
    · intro hop hp1
      unfold Instruction.decode
      rw [htok]
      simp only [hop, Bool.not_true, Bool.false_eq_true, if_false, hp1]
    · intro d1 hop hp1 hp2
      unfold Instruction.decode
      rw [htok]
      simp only [hop, Bool.not_true, Bool.false_eq_true, if_false, hp1, hp2]
    · intro d1 hop hp1 hp2
      unfold Instruction.decode
      rw [htok]
      simp only [hop, Bool.not_true, Bool.false_eq_true, if_false, hp1, hp2]
    · intro d1 a1 himm1 hp1 hp2 hp3
      unfold Instruction.decode
      rw [htok]
      simp only [himm1, if_true, hp1, hp2, hp3]
      simp [ALLOWED_OP_CODES]
    · intro d1 a1 v himm1 hp1 hp2 hp3
      unfold Instruction.decode
      rw [htok]
      simp only [himm1, if_true, hp1, hp2, hp3]
      simp [ALLOWED_OP_CODES]
    · intro d1 a1 himm1 hop hp1 hp2 hp3
      unfold Instruction.decode
      rw [htok]
      simp only [himm1, if_false, hop, hp1, hp2, hp3]
      simp
      simpa using hop
    · intro d1 a1 himm1 hop hp1 hp2 hp3
      unfold Instruction.decode
      rw [htok]
      simp only [himm1, if_false, hop, hp1, hp2, hp3]
      simp
      simpa using hop
    · intro d1 a1 b1 himm1 hop hp1 hp2 hp3
      unfold Instruction.decode
      rw [htok]
      simp only [himm1, if_false, hop, hp1, hp2, hp3]
      simp
      simpa using hop

/-- C9 witness: the characterization applied to concrete instructions — a
three-token line is an `InvalidFormat` error, a non-numeric `addi`
immediate is an `InvalidImmediate` error, a register token with a
multi-byte first character is the byte-slice panic, and a vertical-tab
separator (Unicode whitespace Lean's `Char.isWhitespace` misses) still
tokenizes and decodes. -/
theorem decode_characterization_witness :
    Instruction.decode ⟨"add x1, x2"⟩ 0 =
      some (Except.error ("Invalid instruction format")) ∧
    Instruction.decode ⟨"addi x1, x0, zz"⟩ 0 =
      some (Except.error ("Invalid immediate value")) ∧
    Instruction.decode ⟨"add x1, x2, é3"⟩ 0 = none ∧
    Instruction.decode ⟨"add\x0Bx1, x2, x3"⟩ 0 =
      some (Except.ok ⟨0, "add", false, 1, 2, 3, 0⟩) := by
  refine ⟨?_, ?_, ?_, ?_⟩
  · exact (decode_characterization ⟨"add x1, x2"⟩ 0).1 (by decide)
  · exact ((decode_characterization ⟨"addi x1, x0, zz"⟩ 0).2.2
      "addi" "x1" "x0" "zz" rfl).2.2.2.2.2.1 1 0 rfl rfl rfl rfl
  · exact ((decode_characterization ⟨"add x1, x2, é3"⟩ 0).2.2
      "add" "x1" "x2" "é3" rfl).2.2.2.2.2.2.2.1 1 2 rfl rfl rfl rfl rfl
  · exact ((decode_characterization ⟨"add\x0Bx1, x2, x3"⟩ 0).2.2
      "add" "x1" "x2" "x3" rfl).2.2.2.2.2.2.2.2.2 1 2 3 rfl rfl rfl rfl rfl

/-- C9 counterexample: the claim says the decoder rejects register tokens
not of the form `x<0..31>` with `InvalidRegister`; but `y3` (wrong prefix
letter) and `x255` (out of the 0..31 range) are both accepted, because
`parse_register` parses everything after the first byte as a `u8` and never
checks the prefix or the range. -/
theorem decode_accepts_nonstandard_register :
    Instruction.decode ⟨"sub x1, x2, y3"⟩ 0 =
      some (Except.ok ⟨0, "sub", false, 1, 2, 3, 0⟩) ∧
    Instruction.decode ⟨"add x1, x2, x255"⟩ 0 =
      some (Except.ok ⟨0, "add", false, 1, 2, 255, 0⟩) := ⟨rfl, rfl⟩

/-- Normal form of the per-entry forwarding update: each operand side is
updated exactly when it is not ready and its tag matches. -/
theorem updateIQEntry_eq (r v : Nat) (e : IntegerQueueEntry) :
    updateIQEntry r v e =
      { e with
        op_a_is_ready := if !e.op_a_is_ready && e.op_a_reg_tag == r then true
          else e.op_a_is_ready
        op_a_value := if !e.op_a_is_ready && e.op_a_reg_tag == r then v
          else e.op_a_value
        op_a_reg_tag := if !e.op_a_is_ready && e.op_a_reg_tag == r then 0
          else e.op_a_reg_tag
        op_b_is_ready := if !e.op_b_is_ready && e.op_b_reg_tag == r then true
          else e.op_b_is_ready
        op_b_value := if !e.op_b_is_ready && e.op_b_reg_tag == r then v
          else e.op_b_value
        op_b_reg_tag := if !e.op_b_is_ready && e.op_b_reg_tag == r then 0
          else e.op_b_reg_tag } := by
  unfold updateIQEntry
  by_cases ha : (!e.op_a_is_ready && e.op_a_reg_tag == r) = true <;>
    by_cases hb : (!e.op_b_is_ready && e.op_b_reg_tag == r) = true <;>
      simp [ha, hb]

/-- Absorption never clears the ready bit of either operand. -/
theorem absorbEntry_ready_mono (alus : List ALU) (e : IntegerQueueEntry) :
    (e.op_a_is_ready = true → (absorbEntry alus e).op_a_is_ready = true) ∧
    (e.op_b_is_ready = true → (absorbEntry alus e).op_b_is_ready = true) := by
  induction alus generalizing e with
  | nil => exact ⟨fun h => h, fun h => h⟩
  | cons a as ih =>
    unfold absorbEntry
    simp only [List.foldl_cons]
    constructor
    · intro h
      refine (ih _).1 ?_
      by_cases hf : a.is_forwarding = true <;>
        simp [hf, updateIQEntry_eq, h]
    · intro h
      refine (ih _).2 ?_
      by_cases hf : a.is_forwarding = true <;>
        simp [hf, updateIQEntry_eq, h]

/-- If an operand is still not ready after absorption, its tag was never
touched and matches none of the forwarding ALUs. -/
theorem absorbEntry_spec (alus : List ALU) (e : IntegerQueueEntry) :
    ((absorbEntry alus e).op_a_is_ready = false →
      (absorbEntry alus e).op_a_reg_tag = e.op_a_reg_tag ∧
      ∀ alu ∈ alus, alu.is_forwarding = true →
        e.op_a_reg_tag ≠ alu.forwarding_reg) ∧
    ((absorbEntry alus e).op_b_is_ready = false →
      (absorbEntry alus e).op_b_reg_tag = e.op_b_reg_tag ∧
      ∀ alu ∈ alus, alu.is_forwarding = true →
        e.op_b_reg_tag ≠ alu.forwarding_reg) := by
  induction alus generalizing e with
  | nil => simp [absorbEntry]
  | cons a as ih =>
    have hstep : absorbEntry (a :: as) e = absorbEntry as
        (if a.is_forwarding then
          updateIQEntry a.forwarding_reg a.forwarding_value e else e) := by
      unfold absorbEntry
      simp
    constructor
    · intro hready
      rw [hstep] at hready ⊢
      by_cases hf : a.is_forwarding = true
      · rw [if_pos hf] at hready ⊢
        set e1 := updateIQEntry a.forwarding_reg a.forwarding_value e with he1
        have hcond : (!e.op_a_is_ready && e.op_a_reg_tag == a.forwarding_reg) = false := by
          by_contra hc
          simp only [Bool.not_eq_false] at hc
          have : e1.op_a_is_ready = true := by
            rw [he1, updateIQEntry_eq]
            simp [hc]
          have := (absorbEntry_ready_mono as e1).1 this
          rw [this] at hready
          simp at hready
        have he1a : e1.op_a_reg_tag = e.op_a_reg_tag ∧
            e1.op_a_is_ready = e.op_a_is_ready := by
          rw [he1, updateIQEntry_eq]
          simp [hcond]
        obtain ⟨ih1, ih2⟩ := (ih e1).1 hready
        refine ⟨by rw [ih1, he1a.1], ?_⟩
        intro alu hmem hfw
        rcases List.mem_cons.mp hmem with h | h
        · subst h
          have hnotready : e.op_a_is_ready = false := by
            by_contra hr
            simp only [Bool.not_eq_false] at hr
            have : e1.op_a_is_ready = true := he1a.2.trans hr
            have := (absorbEntry_ready_mono as e1).1 this
            rw [this] at hready
            simp at hready
          intro heq
          rw [hnotready] at hcond
          simp [heq] at hcond
        · have := ih2 alu h hfw
          rw [he1a.1] at this
          exact this
      · rw [if_neg hf] at hready ⊢
        obtain ⟨ih1, ih2⟩ := (ih e).1 hready
        refine ⟨ih1, ?_⟩
        intro alu hmem hfw
        rcases List.mem_cons.mp hmem with h | h
        · subst h
          exact absurd hfw hf
        · exact ih2 alu h hfw
    · intro hready
      rw [hstep] at hready ⊢
      by_cases hf : a.is_forwarding = true
      · rw [if_pos hf] at hready ⊢
        set e1 := updateIQEntry a.forwarding_reg a.forwarding_value e with he1
        have hcond : (!e.op_b_is_ready && e.op_b_reg_tag == a.forwarding_reg) = false := by
          by_contra hc
          simp only [Bool.not_eq_false] at hc
          have : e1.op_b_is_ready = true := by
            rw [he1, updateIQEntry_eq]
            simp [hc]
          have := (absorbEntry_ready_mono as e1).2 this
          rw [this] at hready
          simp at hready
        have he1a : e1.op_b_reg_tag = e.op_b_reg_tag ∧
            e1.op_b_is_ready = e.op_b_is_ready := by
          rw [he1, updateIQEntry_eq]
          simp [hcond]
        obtain ⟨ih1, ih2⟩ := (ih e1).2 hready
        refine ⟨by rw [ih1, he1a.1], ?_⟩
        intro alu hmem hfw
        rcases List.mem_cons.mp hmem with h | h
        · subst h
          have hnotready : e.op_b_is_ready = false := by
            by_contra hr
            simp only [Bool.not_eq_false] at hr
            have : e1.op_b_is_ready = true := he1a.2.trans hr
            have := (absorbEntry_ready_mono as e1).2 this
            rw [this] at hready
            simp at hready
          intro heq
          rw [hnotready] at hcond
          simp [heq] at hcond
        · have := ih2 alu h hfw
          rw [he1a.1] at this
          exact this
      · rw [if_neg hf] at hready ⊢
        obtain ⟨ih1, ih2⟩ := (ih e).2 hready
        refine ⟨ih1, ?_⟩
        intro alu hmem hfw
        rcases List.mem_cons.mp hmem with h | h
        · subst h
          exact absurd hfw hf
        · exact ih2 alu h hfw

/-- An entry on which no forwarding ALU can act is left unchanged by
absorption. -/
theorem absorbEntry_noop (alus : List ALU) (e : IntegerQueueEntry)
    (ha : ∀ alu ∈ alus, alu.is_forwarding = true →
      e.op_a_is_ready = true ∨ e.op_a_reg_tag ≠ alu.forwarding_reg)
    (hb : ∀ alu ∈ alus, alu.is_forwarding = true →
      e.op_b_is_ready = true ∨ e.op_b_reg_tag ≠ alu.forwarding_reg) :
    absorbEntry alus e = e := by
  induction alus with
  | nil => rfl
  | cons a as ih =>
    have hstep : absorbEntry (a :: as) e = absorbEntry as
        (if a.is_forwarding then
          updateIQEntry a.forwarding_reg a.forwarding_value e else e) := by
      unfold absorbEntry
      simp
    rw [hstep]
    by_cases hf : a.is_forwarding = true
    · rw [if_pos hf]
      have hno : updateIQEntry a.forwarding_reg a.forwarding_value e = e := by
        rw [updateIQEntry_eq]
        have hca : (!e.op_a_is_ready && e.op_a_reg_tag == a.forwarding_reg) = false := by
          rcases ha a (List.mem_cons_self a as) hf with h | h
          · simp [h]
          · simp [h]
        have hcb : (!e.op_b_is_ready && e.op_b_reg_tag == a.forwarding_reg) = false := by
          rcases hb a (List.mem_cons_self a as) hf with h | h
          · simp [h]
          · simp [h]
        simp [hca, hcb]
      rw [hno]
      exact ih (fun alu hm => ha alu (List.mem_cons_of_mem a hm))
        (fun alu hm => hb alu (List.mem_cons_of_mem a hm))
    · rw [if_neg hf]
      exact ih (fun alu hm => ha alu (List.mem_cons_of_mem a hm))
        (fun alu hm => hb alu (List.mem_cons_of_mem a hm))

/-- Per-entry idempotence of absorption. -/
theorem absorbEntry_idem (alus : List ALU) (e : IntegerQueueEntry) :
    absorbEntry alus (absorbEntry alus e) = absorbEntry alus e := by
  apply absorbEntry_noop
  · intro alu hm hf
    cases hr : (absorbEntry alus e).op_a_is_ready with
    | true => exact Or.inl rfl
    | false =>
      obtain ⟨htag, hall⟩ := (absorbEntry_spec alus e).1 hr
      exact Or.inr (htag ▸ hall alu hm hf)
  · intro alu hm hf
    cases hr : (absorbEntry alus e).op_b_is_ready with
    | true => exact Or.inl rfl
    | false =>
      obtain ⟨htag, hall⟩ := (absorbEntry_spec alus e).2 hr
      exact Or.inr (htag ▸ hall alu hm hf)

/-- `read_integer_queue_fwd_paths` maps `absorbEntry` over the queue and
changes nothing else. -/
theorem read_integer_queue_fwd_paths_eq (s : Processor) :
    s.read_integer_queue_fwd_paths =
      { s with integer_queue := s.integer_queue.map (absorbEntry s.alus) } := by
  unfold Processor.read_integer_queue_fwd_paths
  have aux : ∀ (alus : List ALU) (t : Processor),
      alus.foldl
        (fun st alu =>
          if alu.is_forwarding then
            st.update_integer_queue alu.forwarding_reg alu.forwarding_value
          else st) t =
      { t with integer_queue := t.integer_queue.map (absorbEntry alus) } := by
    intro alus
    induction alus with
    | nil =>
      intro t
      have h0 : absorbEntry [] = id := by
        funext e
        rfl
      simp [h0]
    | cons a as ih =>
      intro t
      simp only [List.foldl_cons]
      by_cases hf : a.is_forwarding = true
      · rw [if_pos hf]
        rw [ih]
        unfold Processor.update_integer_queue
        simp only [List.map_map]
        congr 1
        apply List.map_congr_left
        intro e _
        unfold absorbEntry
        simp [hf]
      · rw [if_neg hf]
        rw [ih]
        congr 1
        apply List.map_congr_left
        intro e _
        unfold absorbEntry
        simp [hf]
  exact aux s.alus s

/-- C8: absorbing the forwarding outputs into the Integer Queue twice gives
the same queue as absorbing them once (the absorption leaves the ALUs — the
fixed set of asserted forwarding outputs — untouched), and an operand made
ready by forwarding receives the forwarded value with its tag cleared to
0. -/
theorem forwarding_absorption_idempotent :
    (∀ s : Processor,
      s.read_integer_queue_fwd_paths.read_integer_queue_fwd_paths =
        s.read_integer_queue_fwd_paths) ∧
    (∀ s : Processor, (s.read_integer_queue_fwd_paths).alus = s.alus) ∧
    (∀ (r v : Nat) (e : IntegerQueueEntry),
      e.op_a_is_ready = false → e.op_a_reg_tag = r →
      (updateIQEntry r v e).op_a_is_ready = true ∧
      (updateIQEntry r v e).op_a_value = v ∧
      (updateIQEntry r v e).op_a_reg_tag = 0) ∧
    (∀ (r v : Nat) (e : IntegerQueueEntry),
      e.op_b_is_ready = false → e.op_b_reg_tag = r →
      (updateIQEntry r v e).op_b_is_ready = true ∧
      (updateIQEntry r v e).op_b_value = v ∧
      (updateIQEntry r v e).op_b_reg_tag = 0) := by
  refine ⟨?_, ?_, ?_, ?_⟩
  · intro s
    rw [read_integer_queue_fwd_paths_eq s, read_integer_queue_fwd_paths_eq]
    simp only [List.map_map]
    congr 1
    apply List.map_congr_left
    intro e _
    exact absorbEntry_idem s.alus e
  · intro s
    rw [read_integer_queue_fwd_paths_eq]
  · intro r v e h1 h2
    rw [updateIQEntry_eq]
    simp [h1, h2]
  · intro r v e h1 h2
    rw [updateIQEntry_eq]
    simp [h1, h2]

/-- C8 witness: idempotence on a concrete processor and the ready-operand
update on a concrete entry. -/
theorem forwarding_absorption_idempotent_witness :
    (c10_proc.read_integer_queue_fwd_paths.read_integer_queue_fwd_paths =
      c10_proc.read_integer_queue_fwd_paths) ∧
    ((updateIQEntry 5 77 c8_entry).op_a_is_ready = true ∧
      (updateIQEntry 5 77 c8_entry).op_a_value = 77 ∧
      (updateIQEntry 5 77 c8_entry).op_a_reg_tag = 0) ∧
    ((updateIQEntry 6 88 c8_entry).op_b_is_ready = true ∧
      (updateIQEntry 6 88 c8_entry).op_b_value = 88 ∧
      (updateIQEntry 6 88 c8_entry).op_b_reg_tag = 0) :=
  ⟨forwarding_absorption_idempotent.1 c10_proc,
    forwarding_absorption_idempotent.2.2.1 5 77 c8_entry rfl rfl,
    forwarding_absorption_idempotent.2.2.2 6 88 c8_entry rfl rfl⟩

/-- Generic preservation through an `Option`-valued left fold. -/
theorem foldlM_option_preserve {α β : Type} (f : α → β → Option α)
    (P : α → Prop) (hf : ∀ a b a', f a b = some a' → P a → P a') :
    ∀ (l : List β) (a a' : α), List.foldlM f a l = some a' → P a → P a' := by
  intro l
  induction l with
  | nil =>
    intro a a' h hp
    simp only [List.foldlM_nil] at h
    cases h
    exact hp
  | cons b bs ih =>
    intro a a' h hp
    rw [List.foldlM_cons] at h
    cases hfa : f a b with
    | none => rw [hfa] at h; simp at h
    | some a1 =>
      rw [hfa] at h
      exact ih a1 a' (by simpa using h) (hf a b a1 hfa hp)

theorem eqExceptIQAlus_refl (a : Processor) : EqExceptIQAlus a a :=
  ⟨rfl, rfl, rfl, rfl, rfl, rfl, rfl, rfl, rfl, rfl, rfl⟩

theorem eqExceptIQAlus_trans {a b c : Processor}
    (h1 : EqExceptIQAlus a b) (h2 : EqExceptIQAlus b c) :
    EqExceptIQAlus a c := by
  obtain ⟨x1, x2, x3, x4, x5, x6, x7, x8, x9, x10, x11⟩ := h1
  obtain ⟨y1, y2, y3, y4, y5, y6, y7, y8, y9, y10, y11⟩ := h2
  exact ⟨y1.trans x1, y2.trans x2, y3.trans x3, y4.trans x4, y5.trans x5,
    y6.trans x6, y7.trans x7, y8.trans x8, y9.trans x9, y10.trans x10,
    y11.trans x11⟩

/-- `issue_instruction` writes only the integer queue and the ALUs. -/
theorem issue_instruction_frame (s t : Processor)
    (h : s.issue_instruction = some t) : EqExceptIQAlus s t := by
  unfold Processor.issue_instruction at h
  split at h
  · rename_i r heq
    split at h
    · rename_i als heq2
      cases Option.some.inj h
      unfold Processor.find_oldest_ready_instruction at heq
      split at heq
      · rename_i entry hfind
        cases Option.some.inj heq
        exact ⟨rfl, rfl, rfl, rfl, rfl, rfl, rfl, rfl, rfl, rfl, rfl⟩
      · exact Option.noConfusion heq
    · exact Option.noConfusion h
  · cases Option.some.inj h
    exact eqExceptIQAlus_refl s

/-- The Issue stage writes only the integer queue and the ALUs. -/
theorem issue_frame (s t : Processor) (h : s.issue = some t) :
    EqExceptIQAlus s t := by
  unfold Processor.issue at h
  split at h
  · cases Option.some.inj h
    exact eqExceptIQAlus_refl s
  · split at h
    · exact Option.noConfusion h
    · rename_i als hm
      split at h
      · exact Option.noConfusion h
      · rename_i s3 h3
        split at h
        · exact Option.noConfusion h
        · rename_i s4 h4
          split at h
          · exact Option.noConfusion h
          · rename_i s5 h5
            have h1 : EqExceptIQAlus s
                ({ s.read_integer_queue_fwd_paths with alus := als } :
                  Processor) := by
              rw [read_integer_queue_fwd_paths_eq]
              exact ⟨rfl, rfl, rfl, rfl, rfl, rfl, rfl, rfl, rfl, rfl, rfl⟩
            exact eqExceptIQAlus_trans (eqExceptIQAlus_trans
              (eqExceptIQAlus_trans (eqExceptIQAlus_trans h1
                (issue_instruction_frame _ _ h3))
                (issue_instruction_frame _ _ h4))
              (issue_instruction_frame _ _ h5))
              (issue_instruction_frame _ _ h)

/-- `commit_entry` writes only the physical register file and the busy-bit
table. -/
theorem commit_entry_frame (s t : Processor) (e : ActiveListEntry)
    (h : s.commit_entry e = some t) :
    t = { s with
      physical_register_file := t.physical_register_file
      busy_bit_table := t.busy_bit_table } := by
  unfold Processor.commit_entry at h
  cases hf : s.commit_buffer.find? (fun x => x.pc == e.pc) with
  | none => rw [hf] at h; simp at h
  | some b =>
    rw [hf] at h
    simp only [Option.some_inj] at h
    subst h
    rfl

/-- `commit_entry` with a matching buffered record: writes the buffered
value to the PRF at the buffered destination register and clears that
register's busy bit. -/
theorem commit_entry_effects (s : Processor) (entry : ActiveListEntry)
    (b : CommitBufferEntry)
    (hfind : s.commit_buffer.find? (fun x => x.pc == entry.pc) = some b) :
    s.commit_entry entry = some { s with
      physical_register_file :=
        updateFn s.physical_register_file b.dest_register b.value
      busy_bit_table := updateFn s.busy_bit_table b.dest_register false } := by
  unfold Processor.commit_entry
  rw [hfind]
  rfl

/-- With no ALU asserting forwarding, polling the forwarding paths into the
active list is a no-op. -/
theorem read_active_list_fwd_paths_no_fwd (s : Processor)
    (h : ∀ alu ∈ s.alus, alu.is_forwarding = false) :
    s.read_active_list_fwd_paths = some s := by
  unfold Processor.read_active_list_fwd_paths
  have aux : ∀ (l : List ALU), (∀ alu ∈ l, alu.is_forwarding = false) →
      l.foldlM
        (fun st alu =>
          if alu.is_forwarding then st.update_active_list alu else pure st)
        s = some s := by
    intro l
    induction l with
    | nil => intro _; rfl
    | cons a as ih =>
      intro hl
      rw [List.foldlM_cons, if_neg]
      · exact ih (fun alu hm => hl alu (List.mem_cons_of_mem a hm))
      · simp [hl a (List.mem_cons_self a as)]
  exact aux s.alus h

/-- The commit scan stops without effect when no entry is done or
excepting. -/
theorem commitScan_stop (l : List ActiveListEntry) (n : Nat) (s : Processor)
    (pcs : List Nat)
    (hl : ∀ x ∈ l, x.is_done = false ∧ x.is_exception = false) :
    commitScan l n s pcs = (s, pcs) := by
  cases l with
  | nil => rfl
  | cons x xs =>
    unfold commitScan
    obtain ⟨hd, he⟩ := hl x (List.mem_cons_self x xs)
    by_cases hn : n = DECODED_BUFFER_SIZE
    · rw [if_pos hn]
    · rw [if_neg hn]
      simp [hd, he]

/-- C1 (amended): the retire step of Commit pushes the retired entry's
`old_destination` onto the Free List tail and removes the entry from the
Active List (and its record from the commit buffer), leaving the PRF and the
busy-bit table untouched; the write of the forwarded value to
`physical_register_file[dest_register]` and the clearing of the busy bit are
performed by `commit_entry` during the forwarding-absorption sub-step of the
Commit stage, in the cycle the ALU forwards the value. -/
theorem commit_retire_and_prf_write :
    (∀ (s : Processor) (e : ActiveListEntry) (rest : List ActiveListEntry),
      s.exception_mode = false →
      s.active_list = e :: rest →
      e.is_done = true → e.is_exception = false →
      (∀ x ∈ rest, x.is_done = false ∧ x.is_exception = false) →
      (∀ x ∈ rest, x.pc ≠ e.pc) →
      (∀ alu ∈ s.alus, alu.is_forwarding = false) →
      s.commit = some { s with
        active_list := rest
        free_list := s.free_list ++ [e.old_destination]
        commit_buffer := s.commit_buffer.filter (fun x => x.pc ≠ e.pc) }) ∧
    (∀ (s : Processor) (entry : ActiveListEntry) (b : CommitBufferEntry),
      s.commit_buffer.find? (fun x => x.pc == entry.pc) = some b →
      s.commit_entry entry = some { s with
        physical_register_file :=
          updateFn s.physical_register_file b.dest_register b.value
        busy_bit_table := updateFn s.busy_bit_table b.dest_register false }) := by
  constructor
  · intro s e rest hexc hal hdone hexcn hrest hpc hfwd
    unfold Processor.commit
    rw [if_neg (by simp [hexc])]
    rw [hal]
    have hscan : commitScan (e :: rest) 0 s [] =
        ({ s with free_list := s.free_list ++ [e.old_destination] }, [e.pc]) := by
      unfold commitScan
      rw [if_neg (by simp [DECODED_BUFFER_SIZE])]
      simp only [hdone, hexcn]
      simp only [Bool.false_eq_true, if_false, if_true]
      exact commitScan_stop rest 1 _ [e.pc] hrest
    rw [hscan]
    have hrm : removePcs [e.pc]
        ({ s with free_list := s.free_list ++ [e.old_destination] } :
          Processor) =
        { s with
          active_list := rest
          free_list := s.free_list ++ [e.old_destination]
          commit_buffer := s.commit_buffer.filter (fun x => x.pc ≠ e.pc) } := by
      unfold removePcs
      simp only [List.foldl_cons, List.foldl_nil]
      congr 1
      · rw [hal]
        rw [List.filter_cons]
        simp only [decide_not]
        rw [if_neg (by simp)]
        apply List.filter_eq_self.mpr
        intro x hx
        simpa using hpc x hx
    rw [hrm]
    apply read_active_list_fwd_paths_no_fwd
    exact hfwd
  · intro s entry b hfind
    exact commit_entry_effects s entry b hfind

theorem dispatchFrame_refl (a : Processor) : DispatchFrame a a :=
  ⟨rfl, rfl, rfl, rfl, rfl, rfl, rfl, rfl⟩

theorem dispatchFrame_trans {a b c : Processor}
    (h1 : DispatchFrame a b) (h2 : DispatchFrame b c) : DispatchFrame a c := by
  obtain ⟨x1, x2, x3, x4, x5, x6, x7, x8⟩ := h1
  obtain ⟨y1, y2, y3, y4, y5, y6, y7, y8⟩ := h2
  exact ⟨y1.trans x1, y2.trans x2, y3.trans x3, y4.trans x4, y5.trans x5,
    y6.trans x6, y7.trans x7, y8.trans x8⟩

/-- One dispatch step touches only the active list, integer queue, free
list, busy bits and map table. -/
theorem dispatch_step_frame (st cur : Processor) (d : DecodedInstruction)
    (t : Processor)
    (h : (st.add_active_list_entry d).add_integer_queue_entry cur d = some t) :
    DispatchFrame st t := by
  unfold Processor.add_integer_queue_entry at h
  split at h
  · exact Option.noConfusion h
  · rename_i p s1 hmap
    cases Option.some.inj h
    unfold Processor.map_destination_register at hmap
    split at hmap
    · exact Option.noConfusion hmap
    · rename_i q rest hfree
      cases Option.some.inj hmap
      exact ⟨rfl, rfl, rfl, rfl, rfl, rfl, rfl, rfl⟩

/-- The dispatch loop touches only the active list, integer queue, free
list, busy bits and map table. -/
theorem dispatch_loop_frame (cur : Processor) (ds : List DecodedInstruction)
    (s t : Processor) (h : s.dispatch_loop cur ds = some t) :
    DispatchFrame s t := by
  unfold Processor.dispatch_loop at h
  refine foldlM_option_preserve _ (fun x => DispatchFrame s x) ?_ ds s t h
    (dispatchFrame_refl s)
  intro a d a' hstep hp
  exact dispatchFrame_trans hp (dispatch_step_frame a cur d a' hstep)

/-- Complete case analysis of `rename_and_dispatch`. -/
theorem rename_and_dispatch_cases (s cur t : Processor) (bp : Bool)
    (h : s.rename_and_dispatch cur = some (t, bp)) :
    (bp = true ∧ t = s ∧ s.has_sufficient_resources = false) ∨
    (bp = false ∧ s.has_sufficient_resources = true ∧
      ∃ s1, s.dispatch_loop cur cur.decoded_instructions = some s1 ∧
        t = s1.clear_decoded_instructions) := by
  unfold Processor.rename_and_dispatch at h
  split at h
  · rename_i hc
    obtain ⟨h1, h2⟩ := Prod.mk.injEq .. ▸ Option.some.inj h
    left
    refine ⟨h2.symm, h1.symm, ?_⟩
    simpa using hc
  · rename_i hc
    split at h
    · exact Option.noConfusion h
    · rename_i s1 hloop
      obtain ⟨h1, h2⟩ := Prod.mk.injEq .. ▸ Option.some.inj h
      right
      refine ⟨h2.symm, by simpa using hc, s1, hloop, h1.symm⟩

/-- Complete case analysis of `fetch_and_decode`. -/
theorem fetch_and_decode_cases (s : Processor) (instructions : List Instruction)
    (backpressure : Bool) (r : Processor × List Instruction)
    (h : s.fetch_and_decode instructions backpressure = some r) :
    (backpressure = true ∧ r = (s, instructions)) ∨
    (backpressure = false ∧ s.exception_mode = true ∧
      r = ({ s.clear_decoded_instructions with pc := EXCEPTION_PC },
        instructions)) ∨
    (backpressure = false ∧ s.exception_mode = false ∧
      fetchLoop s instructions = some r) := by
  unfold Processor.fetch_and_decode at h
  split at h
  · rename_i hb
    exact Or.inl ⟨hb, (Option.some.inj h).symm⟩
  · rename_i hb
    rw [Bool.not_eq_true] at hb
    split at h
    · rename_i he
      exact Or.inr (Or.inl ⟨hb, he, (Option.some.inj h).symm⟩)
    · rename_i he
      rw [Bool.not_eq_true] at he
      exact Or.inr (Or.inr ⟨hb, he, h⟩)

/-- The fetch loop writes only the decoded buffer, the decoded pcs and the
pc. -/
theorem fetchLoop_frame :
    ∀ (instructions : List Instruction) (s : Processor)
      (r : Processor × List Instruction), fetchLoop s instructions = some r →
    r.1.active_list = s.active_list ∧
    r.1.exception_mode = s.exception_mode ∧
    r.1.exception_pc = s.exception_pc ∧
    r.1.free_list = s.free_list ∧
    r.1.integer_queue = s.integer_queue ∧
    r.1.alus = s.alus ∧
    r.1.commit_buffer = s.commit_buffer ∧
    r.1.busy_bit_table = s.busy_bit_table ∧
    r.1.physical_register_file = s.physical_register_file ∧
    r.1.register_map_table = s.register_map_table := by
  intro instructions
  induction instructions with
  | nil =>
    intro s r h
    cases Option.some.inj h
    exact ⟨rfl, rfl, rfl, rfl, rfl, rfl, rfl, rfl, rfl, rfl⟩
  | cons i rest ih =>
    intro s r h
    unfold fetchLoop at h
    split at h
    · split at h
      · have hres := ih _ r h
        exact hres
      · exact Option.noConfusion h
      · exact Option.noConfusion h
    · cases Option.some.inj h
      exact ⟨rfl, rfl, rfl, rfl, rfl, rfl, rfl, rfl, rfl, rfl⟩

/-- Rolling back an empty active list changes nothing. -/
theorem rollback_empty (s : Processor) (h : s.active_list = []) :
    s.rollback = s := by
  unfold Processor.rollback
  rw [h]
  rfl

/-- In exception mode with an empty active list, `commit` just clears the
exception flag. -/
theorem commit_exc_empty (s : Processor) (hexc : s.exception_mode = true)
    (hal : s.active_list = []) :
    s.commit = some { s with exception_mode := false } := by
  unfold Processor.commit
  rw [if_pos (by simp [hexc]), if_pos (by simp [hal])]
  rw [rollback_empty _ (show ({ s with exception_mode := false } :
    Processor).active_list = [] from hal)]

/-- `rename_and_dispatch` never changes the exception flag. -/
theorem rename_and_dispatch_exc (s cur t : Processor) (bp : Bool)
    (h : s.rename_and_dispatch cur = some (t, bp)) :
    t.exception_mode = s.exception_mode := by
  rcases rename_and_dispatch_cases s cur t bp h with
    ⟨_, ht, _⟩ | ⟨_, _, s1, hloop, ht⟩
  · rw [ht]
  · have hf := dispatch_loop_frame cur cur.decoded_instructions s s1 hloop
    rw [ht]
    exact hf.2.2.1

/-- C1 counterexample: the claim says the PRF is written only by the
commit-retire step; but on `c1_state` the Commit stage retires nothing (the
single entry, not yet done at scan time, is still in the active list
afterwards, merely marked done) while the PRF at register 32 changes from 0
to 5, and the busy bit of register 32 is cleared — the write happens in the
forwarding-absorption sub-step (`commit_entry`), one cycle before the entry
is retired. -/
theorem commit_writes_prf_without_retire :
    (c1_state.commit).map
      (fun t => (t.active_list, t.physical_register_file 32,
        t.busy_bit_table 32)) =
      some ([⟨true, false, 1, 1, 0⟩], 5, false) ∧
    c1_state.active_list = [⟨false, false, 1, 1, 0⟩] ∧
    c1_state.physical_register_file 32 = 0 ∧
    c1_state.busy_bit_table 32 = true := ⟨rfl, rfl, rfl, rfl⟩

/-- C1 witness: the amended theorem applied to `c1r_state` (retire frame)
and to the corresponding `commit_entry` call (PRF write). -/
theorem commit_retire_and_prf_write_witness :
    c1r_state.commit = some { c1r_state with
      active_list := []
      free_list := c1r_state.free_list ++ [1]
      commit_buffer := c1r_state.commit_buffer.filter
        (fun x => x.pc ≠ (0 : Nat)) } ∧
    c1r_state.commit_entry ⟨true, false, 1, 1, 0⟩ = some { c1r_state with
      physical_register_file := updateFn c1r_state.physical_register_file 32 5
      busy_bit_table := updateFn c1r_state.busy_bit_table 32 false } := by
  constructor
  · exact commit_retire_and_prf_write.1 c1r_state ⟨true, false, 1, 1, 0⟩ []
      rfl rfl rfl rfl (by simp) (by simp)
      (fun alu h => by rw [List.eq_of_mem_replicate h]; rfl)
  · exact commit_retire_and_prf_write.2 c1r_state ⟨true, false, 1, 1, 0⟩
      ⟨32, 5, 0⟩ rfl

/-- C5 counterexample: the claim says a backpressure cycle leaves the Active
List and Free List (among others) unchanged; but on `c5_state` the cycle
asserts backpressure (the state Rename sees fails the resource check, and
since Rename and Fetch change nothing, that state is the cycle's result)
while Commit still retires the done entry: the Free List grows from `[]` to
`[40]` and the Active List empties. -/
theorem backpressure_cycle_changes_state :
    (c5_state.propagate []).map
      (fun r => (r.1.free_list, r.1.active_list,
        r.1.has_sufficient_resources)) = some ([40], [], false) ∧
    c5_state.free_list = [] ∧
    c5_state.active_list.length = 1 := ⟨rfl, rfl, rfl⟩

/-- C5 (amended): when Rename & Dispatch runs with insufficient resources it
asserts backpressure and changes nothing itself, and the backpressured
Fetch & Decode stage is skipped, leaving the state and the input stream
exactly as the earlier stages (Commit and Issue, which still run) left
them. -/
theorem backpressure_stage_frame :
    (∀ s cur : Processor, s.has_sufficient_resources = false →
      s.rename_and_dispatch cur = some (s, true)) ∧
    (∀ (s : Processor) (instructions : List Instruction),
      s.fetch_and_decode instructions true = some (s, instructions)) := by
  constructor
  · intro s cur h
    unfold Processor.rename_and_dispatch
    rw [if_pos (by simp [h])]
  · intro s instructions
    unfold Processor.fetch_and_decode
    rw [if_pos rfl]

/-- C5 witness: the amended theorem at `c5_state` (which fails the resource
check) and at a concrete backpressured fetch. -/
theorem backpressure_stage_frame_witness :
    c5_state.rename_and_dispatch c5_state = some (c5_state, true) ∧
    Processor.new.fetch_and_decode [⟨"add x1, x2, x3"⟩] true =
      some (Processor.new, [⟨"add x1, x2, x3"⟩]) :=
  ⟨backpressure_stage_frame.1 c5_state c5_state rfl,
    backpressure_stage_frame.2 Processor.new [⟨"add x1, x2, x3"⟩]⟩

/-- C2: the driver's loop condition fails — the run halts — exactly when the
instruction stream is empty, the Active List is empty and Exception Mode is
clear, or the cycle cap is reached; and whenever a cycle ends in Exception
Mode with the Active List already drained, the driver does not halt there
(the halt predicate requires the flag clear) and the very next `propagate`
clears the Exception flag, so the cleared flag appears in a logged snapshot
before the run stops. -/
theorem driver_halt_and_exception_clear :
    (∀ (instructions : List Instruction) (s : Processor)
        (state_log : List Processor),
      driverContinues instructions s state_log = false ↔
        ((instructions = [] ∧ s.active_list = [] ∧ s.exception_mode = false) ∨
          MAX_CYCLES ≤ state_log.length)) ∧
    (∀ (s : Processor) (instructions : List Instruction)
        (r : Processor × List Instruction),
      s.exception_mode = true → s.active_list = [] →
      s.propagate instructions = some r → r.1.exception_mode = false) := by
  constructor
  · intro instructions s state_log
    unfold driverContinues Processor.active_list_is_empty
    constructor
    · intro h
      rcases Bool.and_eq_false_iff.mp h with h1 | h2
      · left
        simp only [Bool.not_eq_false', Bool.and_eq_true, Bool.not_eq_true',
          List.isEmpty_iff] at h1
        exact ⟨h1.1, h1.2.1, h1.2.2⟩
      · right
        simpa using h2
    · intro h
      rcases h with ⟨h1, h2, h3⟩ | h
      · simp [h1, h2, h3]
      · have : decide (state_log.length < MAX_CYCLES) = false := by
          simp
          omega
        simp [this]
  · intro s instructions r hexc hal hprop
    unfold Processor.propagate at hprop
    split at hprop
    · exact Option.noConfusion hprop
    · rename_i next1 hcommit
      rw [commit_exc_empty s hexc hal] at hcommit
      cases Option.some.inj hcommit
      rw [if_pos (by simp)] at hprop
      split at hprop
      · exact Option.noConfusion hprop
      · rename_i ni hissue
        have hni : ni.exception_mode = false :=
          (issue_frame _ _ hissue).2.2.2.2.1
        split at hprop
        · exact Option.noConfusion hprop
        · rename_i rr hren
          have hrr : rr.1.exception_mode = false := by
            rw [rename_and_dispatch_exc _ _ _ _ (by rw [← hren])]
            exact hni
          rcases fetch_and_decode_cases _ _ _ _ hprop with
            ⟨_, hr⟩ | ⟨_, hre, hr⟩ | ⟨_, _, hloop⟩
          · rw [hr]
            exact hrr
          · rw [hre] at hrr
            exact absurd hrr (by simp)
          · exact (fetchLoop_frame _ _ _ hloop).2.1.trans hrr

/-- C2 witness: on `c2_state` the driver does not halt (the modelled halt
predicate sees the set Exception flag) and the next `propagate` clears the
flag. -/
theorem driver_halt_and_exception_clear_witness :
    ((c2_state.propagate []).map (fun r => r.1.exception_mode) = some false) ∧
    driverContinues [] c2_state [] = true := by
  constructor
  · have h : c2_state.propagate [] =
        some ({ c2_state with exception_mode := false }, []) := rfl
    rw [h]
    show some (({ c2_state with exception_mode := false } :
      Processor).exception_mode) = some false
    rw [driver_halt_and_exception_clear.2 c2_state [] _ rfl rfl h]
  · rfl

/-- Overwriting an updated slot with the original value undoes the update. -/
theorem updateFn_cancel (f : Nat → Nat) (i v : Nat) :
    updateFn (updateFn f i v) i (f i) = f := by
  funext j
  unfold updateFn
  by_cases h : j = i <;> simp [h]

/-- The rollback scan processes the first `4 - k` entries of its list with
`rollbackCore` and records their pcs. -/
theorem rollbackScan_characterize :
    ∀ (l : List ActiveListEntry) (k : Nat) (s : Processor) (pcs : List Nat),
      k ≤ DECODED_BUFFER_SIZE →
      rollbackScan l k s pcs =
        ((l.take (DECODED_BUFFER_SIZE - k)).foldl rollbackCore s,
          pcs ++ (l.take (DECODED_BUFFER_SIZE - k)).map (fun e => e.pc)) := by
  intro l
  induction l with
  | nil => intro k s pcs _; simp [rollbackScan]
  | cons e rest ih =>
    intro k s pcs hk
    unfold rollbackScan
    by_cases h4 : k = DECODED_BUFFER_SIZE
    · rw [if_pos h4]
      have : DECODED_BUFFER_SIZE - k = 0 := by omega
      simp [this]
    · rw [if_neg h4]
      have hlt : k < DECODED_BUFFER_SIZE := Nat.lt_of_le_of_ne hk h4
      have htake : DECODED_BUFFER_SIZE - k = (DECODED_BUFFER_SIZE - (k + 1)) + 1 := by
        omega
      rw [htake]
      rw [List.take_succ_cons]
      rw [List.foldl_cons, List.map_cons]
      rw [ih (k + 1) _ (pcs ++ [e.pc]) (by omega)]
      simp [rollbackCore]

/-- One rollback cycle: apply `rollbackCore` to the up-to-four youngest
entries (youngest first) and remove their pcs. -/
theorem rollback_eq (s : Processor) :
    s.rollback =
      removePcs
        ((s.active_list.reverse.take DECODED_BUFFER_SIZE).map (fun e => e.pc))
        ((s.active_list.reverse.take DECODED_BUFFER_SIZE).foldl
          rollbackCore s) := by
  unfold Processor.rollback
  rw [rollbackScan_characterize _ 0 _ [] (by omega)]
  simp

/-- The removal loop filters both the active list and the commit buffer by
pc-membership in the removal set, and changes nothing else. -/
theorem removePcs_eq (pcs : List Nat) :
    ∀ s : Processor,
    removePcs pcs s = { s with
      active_list := s.active_list.filter (fun x => !pcs.contains x.pc)
      commit_buffer := s.commit_buffer.filter
        (fun x => !pcs.contains x.pc) } := by
  induction pcs with
  | nil =>
    intro s
    unfold removePcs
    simp
  | cons p ps ih =>
    intro s
    unfold removePcs
    rw [List.foldl_cons]
    have hstep : removePcs ps
        ({ s with
          active_list := s.active_list.filter (fun x => x.pc ≠ p)
          commit_buffer := s.commit_buffer.filter (fun x => x.pc ≠ p) } :
            Processor) =
        { s with
          active_list := (s.active_list.filter (fun x => x.pc ≠ p)).filter
            (fun x => !ps.contains x.pc)
          commit_buffer := (s.commit_buffer.filter (fun x => x.pc ≠ p)).filter
            (fun x => !ps.contains x.pc) } := ih _
    rw [show (List.foldl
        (fun st pc => { st with
          active_list := st.active_list.filter (fun x => x.pc ≠ pc)
          commit_buffer := st.commit_buffer.filter (fun x => x.pc ≠ pc) } :
            Processor → Nat → Processor)
        ({ s with
          active_list := s.active_list.filter (fun x => x.pc ≠ p)
          commit_buffer := s.commit_buffer.filter (fun x => x.pc ≠ p) } :
            Processor) ps) = removePcs ps _ from rfl]
    rw [hstep]
    congr 1 <;> rw [List.filter_filter] <;> apply List.filter_congr <;>
      intro x _ <;> simp [List.contains_cons, Bool.and_comm]

/-- `rollbackCore` folds leave the active list and commit buffer alone. -/
theorem rollbackEntries_frame (l : List ActiveListEntry) :
    ∀ s : Processor,
    (rollbackEntries s l).active_list = s.active_list ∧
    (rollbackEntries s l).commit_buffer = s.commit_buffer := by
  induction l with
  | nil => intro s; exact ⟨rfl, rfl⟩
  | cons e rest ih =>
    intro s
    unfold rollbackEntries at ih ⊢
    rw [List.foldl_cons]
    exact ih (rollbackCore s e)

/-- Two states agreeing on map table, free list and busy bits are sent by a
`rollbackCore` fold to states again agreeing on those three fields. -/
theorem rollbackEntries_congr (l : List ActiveListEntry) :
    ∀ a b : Processor,
    a.register_map_table = b.register_map_table →
    a.free_list = b.free_list →
    a.busy_bit_table = b.busy_bit_table →
    (rollbackEntries a l).register_map_table =
      (rollbackEntries b l).register_map_table ∧
    (rollbackEntries a l).free_list = (rollbackEntries b l).free_list ∧
    (rollbackEntries a l).busy_bit_table =
      (rollbackEntries b l).busy_bit_table := by
  induction l with
  | nil => intro a b h1 h2 h3; exact ⟨h1, h2, h3⟩
  | cons e rest ih =>
    intro a b h1 h2 h3
    unfold rollbackEntries at ih ⊢
    rw [List.foldl_cons, List.foldl_cons]
    apply ih
    · simp [rollbackCore, Processor.set_free, Processor.map_register, h1]
    · simp [rollbackCore, Processor.set_free, Processor.map_register, h1, h2]
    · simp [rollbackCore, Processor.set_free, Processor.map_register, h1, h3]

/-- The free-list pushes of a `rollbackCore` fold depend only on the map
table: states with equal map tables push the same register sequence. -/
theorem rollbackEntries_pushes (l : List ActiveListEntry) :
    ∀ a b : Processor,
    a.register_map_table = b.register_map_table →
    (rollbackEntries a l).register_map_table =
      (rollbackEntries b l).register_map_table ∧
    ∃ D : List Nat,
      (rollbackEntries a l).free_list = a.free_list ++ D ∧
      (rollbackEntries b l).free_list = b.free_list ++ D := by
  induction l with
  | nil =>
    intro a b h1
    exact ⟨h1, [], by simp [rollbackEntries], by simp [rollbackEntries]⟩
  | cons e rest ih =>
    intro a b h1
    unfold rollbackEntries at ih ⊢
    rw [List.foldl_cons, List.foldl_cons]
    have hrmt : (rollbackCore a e).register_map_table =
        (rollbackCore b e).register_map_table := by
      simp [rollbackCore, Processor.set_free, Processor.map_register, h1]
    obtain ⟨hr, D, hDa, hDb⟩ := ih (rollbackCore a e) (rollbackCore b e) hrmt
    refine ⟨hr, a.register_map_table e.logical_destination :: D, ?_, ?_⟩
    · rw [hDa]
      simp [rollbackCore, Processor.set_free, Processor.map_register]
    · rw [hDb]
      simp [rollbackCore, Processor.set_free, Processor.map_register, h1]

/-- Rollback cycles are the identity once the active list is empty. -/
theorem rollback_iterate_empty (m : Nat) :
    ∀ s : Processor, s.active_list = [] → Processor.rollback^[m] s = s := by
  induction m with
  | zero => intro s _; rfl
  | succ k ih =>
    intro s h
    rw [Function.iterate_succ_apply, rollback_empty s h, ih s h]

/-- Draining the Active List by iterating whole rollback cycles (up to four
entries per cycle) computes the same map table and free list as a single
youngest-first `rollbackCore` pass over the reversed active list, and leaves
the active list empty.  Requires pairwise-distinct pcs (pc is the removal
key). -/
theorem rollback_drain :
    ∀ (n : Nat) (s : Processor), s.active_list.length = n →
      (s.active_list.map (fun e => e.pc)).Pairwise (· ≠ ·) →
      (Processor.rollback^[n] s).register_map_table =
        (rollbackEntries s s.active_list.reverse).register_map_table ∧
      (Processor.rollback^[n] s).free_list =
        (rollbackEntries s s.active_list.reverse).free_list ∧
      (Processor.rollback^[n] s).active_list = [] := by
  intro n
  induction n using Nat.strong_induction_on with
  | _ n ih =>
    intro s hn hpw
    rcases Nat.eq_zero_or_pos n with h0 | hpos
    · subst h0
      have hal : s.active_list = [] := List.length_eq_zero.mp hn
      rw [hal]
      exact ⟨rfl, rfl, hal⟩
    · set T := s.active_list.reverse.take DECODED_BUFFER_SIZE with hTdef
      set D := s.active_list.reverse.drop DECODED_BUFFER_SIZE with hDdef
      have hT : s.active_list.reverse = T ++ D := by
        rw [hTdef, hDdef, List.take_append_drop]
      have hlenrev : s.active_list.reverse.length = n := by
        rw [List.length_reverse, hn]
      have hklen : T.length = min DECODED_BUFFER_SIZE n := by
        rw [hTdef, List.length_take, hlenrev]
      have hdlen : D.length = n - DECODED_BUFFER_SIZE := by
        rw [hDdef, List.length_drop, hlenrev]
      have hkpos : 1 ≤ T.length := by
        rw [hklen]
        have : (0 : Nat) < DECODED_BUFFER_SIZE := by norm_num [DECODED_BUFFER_SIZE]
        omega
      have hpwrev : (s.active_list.reverse.map (fun e => e.pc)).Pairwise
          (· ≠ ·) := by
        rw [List.map_reverse, List.pairwise_reverse]
        exact hpw.imp (fun h => h.symm)
      have hpwsplit := hpwrev
      rw [hT, List.map_append, List.pairwise_append] at hpwsplit
      obtain ⟨hpwT, hpwD, hcross⟩ := hpwsplit
      have hALsplit : s.active_list = D.reverse ++ T.reverse := by
        rw [← List.reverse_append, ← hT, List.reverse_reverse]
      -- one rollback cycle
      have hAL' : (s.rollback).active_list = D.reverse := by
        rw [rollback_eq, removePcs_eq, ← hTdef]
        show ((rollbackEntries s T).active_list).filter _ = _
        rw [(rollbackEntries_frame _ s).1]
        rw [hALsplit, List.filter_append]
        have h1 : (D.reverse).filter
            (fun x => !(T.map (fun e => e.pc)).contains x.pc) = D.reverse := by
          apply List.filter_eq_self.mpr
          intro x hx
          have hxd : x.pc ∈ D.map (fun e => e.pc) :=
            List.mem_map_of_mem _ (List.mem_reverse.mp hx)
          have hnot : x.pc ∉ T.map (fun e => e.pc) := by
            intro hmem
            exact hcross x.pc hmem x.pc hxd rfl
          simpa using hnot
        have h2 : (T.reverse).filter
            (fun x => !(T.map (fun e => e.pc)).contains x.pc) = [] := by
          apply List.filter_eq_nil_iff.mpr
          intro x hx
          have hxt : x.pc ∈ T.map (fun e => e.pc) :=
            List.mem_map_of_mem _ (List.mem_reverse.mp hx)
          simpa using hxt
        rw [h1, h2, List.append_nil]
      have hfields : (s.rollback).register_map_table =
          (rollbackEntries s T).register_map_table ∧
          (s.rollback).free_list = (rollbackEntries s T).free_list ∧
          (s.rollback).busy_bit_table =
            (rollbackEntries s T).busy_bit_table := by
        rw [rollback_eq, removePcs_eq, ← hTdef]
        exact ⟨rfl, rfl, rfl⟩
      -- decompose the iteration
      have hsplit : n = (T.length - 1) + D.length + 1 := by
        rw [hklen, hdlen]
        omega
      have hiter : Processor.rollback^[n] s =
          Processor.rollback^[T.length - 1]
            (Processor.rollback^[D.length] (s.rollback)) := by
        conv_lhs => rw [hsplit]
        rw [Function.iterate_succ_apply]
        rw [Function.iterate_add_apply]
      -- apply the induction hypothesis to the cycled state
      have hlt : D.length < n := by
        rw [hdlen]
        omega
      have hpw' : ((s.rollback).active_list.map (fun e => e.pc)).Pairwise
          (· ≠ ·) := by
        rw [hAL', List.map_reverse, List.pairwise_reverse]
        exact hpwD.imp (fun h => h.symm)
      have hlen' : (s.rollback).active_list.length = D.length := by
        rw [hAL', List.length_reverse]
      obtain ⟨ihr, ihf, ihal⟩ := ih _ hlt (s.rollback) hlen' hpw'
      have hrev' : (s.rollback).active_list.reverse = D := by
        rw [hAL', List.reverse_reverse]
      rw [hrev'] at ihr ihf
      have hcongr := rollbackEntries_congr D (s.rollback)
        (rollbackEntries s T) hfields.1 hfields.2.1 hfields.2.2
      have hfold : rollbackEntries s s.active_list.reverse =
          rollbackEntries (rollbackEntries s T) D := by
        conv_lhs => rw [hT]
        unfold rollbackEntries
        rw [List.foldl_append]
      rw [hiter]
      rw [rollback_iterate_empty _ _ ihal]
      refine ⟨?_, ?_, ihal⟩
      · rw [ihr, hfold]
        exact hcongr.1
      · rw [ihf, hfold]
        exact hcongr.2.1

/-- Reading back the slot just written. -/
theorem updateFn_same (f : Nat → Nat) (i v : Nat) : updateFn f i v i = v := by
  simp [updateFn]

/-- `Option`-monad fold over an appended list splits into two folds. -/
theorem foldlM_option_append {α β : Type} (f : α → β → Option α)
    (l1 l2 : List β) : ∀ a : α,
    (l1 ++ l2).foldlM f a = (l1.foldlM f a).bind (fun b => l2.foldlM f b) := by
  induction l1 with
  | nil => intro a; simp
  | cons x xs ih =>
    intro a
    rw [List.cons_append, List.foldlM_cons, List.foldlM_cons]
    cases hfa : f a x with
    | none => simp
    | some a1 => simp [ih a1]

/-- Effect of dispatching one decoded instruction: append the active-list
entry recording the old mapping, pop the free-list head as the new physical
destination, remap the logical destination to it and set its busy bit. -/
theorem dispatch_step_eq (st cur : Processor) (d : DecodedInstruction)
    (t : Processor)
    (h : (st.add_active_list_entry d).add_integer_queue_entry cur d = some t) :
    ∃ p rest, st.free_list = p :: rest ∧
      t.active_list = st.active_list ++
        [⟨false, false, d.logical_destination,
          st.register_map_table d.logical_destination, d.pc⟩] ∧
      t.free_list = rest ∧
      t.register_map_table =
        updateFn st.register_map_table d.logical_destination p ∧
      t.busy_bit_table = updateFn st.busy_bit_table p true := by
  unfold Processor.add_integer_queue_entry at h
  split at h
  · exact Option.noConfusion h
  · rename_i p s1 hmap
    cases Option.some.inj h
    unfold Processor.map_destination_register at hmap
    split at hmap
    · exact Option.noConfusion hmap
    · rename_i q rest hfree
      obtain ⟨h1, h2⟩ := Prod.mk.injEq .. ▸ Option.some.inj hmap
      subst h1
      subst h2
      exact ⟨q, rest, hfree, rfl, rfl, rfl, rfl⟩

/-- Dispatching a sequence of decoded instructions onto an empty Active List
and then running one youngest-first `rollbackCore` pass over the resulting
Active List restores the map table and turns the allocated registers (the
popped free-list prefix) into free-list pushes in reverse (youngest-first)
order. -/
theorem dispatch_core_invert :
    ∀ (ds : List DecodedInstruction) (s cur s1 : Processor),
      s.dispatch_loop cur ds = some s1 →
      s.active_list = [] →
      (rollbackEntries s1 s1.active_list.reverse).register_map_table =
        s.register_map_table ∧
      s1.free_list = s.free_list.drop ds.length ∧
      (rollbackEntries s1 s1.active_list.reverse).free_list =
        s1.free_list ++ (s.free_list.take ds.length).reverse := by
  intro ds
  induction ds using List.reverseRecOn with
  | nil =>
    intro s cur s1 h hal
    unfold Processor.dispatch_loop at h
    rw [List.foldlM_nil] at h
    cases Option.some.inj h
    rw [hal]
    exact ⟨rfl, by simp, by simp [rollbackEntries]⟩
  | append_singleton ds d ih =>
    intro s cur s1 h hal
    unfold Processor.dispatch_loop at h
    rw [foldlM_option_append] at h
    cases h0 : List.foldlM
        (fun st d => (st.add_active_list_entry d).add_integer_queue_entry
          cur d) s ds with
    | none => rw [h0] at h; exact Option.noConfusion h
    | some s0 =>
      rw [h0] at h
      simp only [Option.some_bind] at h
      rw [List.foldlM_cons] at h
      have hstep : (s0.add_active_list_entry d).add_integer_queue_entry
          cur d = some s1 := by
        cases hs : (s0.add_active_list_entry d).add_integer_queue_entry
            cur d with
        | none => rw [hs] at h; exact Option.noConfusion h
        | some x =>
          rw [hs] at h
          simpa using h
      obtain ⟨ihr, ihfree, ihfold⟩ := ih s cur s0 h0 hal
      obtain ⟨p, rest, hfree, hAL, hfree1, hrmt1, hbusy1⟩ :=
        dispatch_step_eq s0 cur d s1 hstep
      -- the reversed active list starts with the youngest entry
      have hALrev : s1.active_list.reverse =
          (⟨false, false, d.logical_destination,
            s0.register_map_table d.logical_destination, d.pc⟩ :
              ActiveListEntry) :: s0.active_list.reverse := by
        rw [hAL, List.reverse_append]
        rfl
      have hcorermt : (rollbackCore s1
          (⟨false, false, d.logical_destination,
            s0.register_map_table d.logical_destination, d.pc⟩ :
              ActiveListEntry)).register_map_table =
          s0.register_map_table := by
        simp only [rollbackCore, Processor.set_free, Processor.map_register]
        rw [hrmt1, updateFn_cancel]
      have hcorefree : (rollbackCore s1
          (⟨false, false, d.logical_destination,
            s0.register_map_table d.logical_destination, d.pc⟩ :
              ActiveListEntry)).free_list = rest ++ [p] := by
        simp only [rollbackCore, Processor.set_free, Processor.map_register]
        rw [hfree1, hrmt1, updateFn_same]
      -- compare the remaining fold with the induction hypothesis fold
      obtain ⟨hpushr, D, hDa, hDb⟩ := rollbackEntries_pushes
        s0.active_list.reverse
        (rollbackCore s1
          (⟨false, false, d.logical_destination,
            s0.register_map_table d.logical_destination, d.pc⟩ :
              ActiveListEntry))
        s0 hcorermt
      have hD : D = (s.free_list.take ds.length).reverse := by
        have := hDb.symm.trans ihfold
        rw [ihfree] at this
        exact List.append_cancel_left this
      have htake : s.free_list.take (ds.length + 1) =
          s.free_list.take ds.length ++ [p] := by
        rw [List.take_add]
        congr 1
        rw [← ihfree, hfree]
        rfl
      have hdrop : s.free_list.drop (ds.length + 1) = rest := by
        rw [← List.tail_drop, ← ihfree, hfree]
        rfl
      constructor
      · rw [hALrev]
        unfold rollbackEntries
        rw [List.foldl_cons]
        rw [show List.foldl rollbackCore _ s0.active_list.reverse =
          rollbackEntries _ s0.active_list.reverse from rfl]
        rw [hpushr]
        rw [show (rollbackEntries s0
          s0.active_list.reverse).register_map_table =
            s.register_map_table from ihr]
      constructor
      · rw [hfree1, List.length_append, List.length_singleton, hdrop]
      · rw [hALrev]
        unfold rollbackEntries
        rw [List.foldl_cons]
        rw [show List.foldl rollbackCore _ s0.active_list.reverse =
          rollbackEntries _ s0.active_list.reverse from rfl]
        rw [hDa, hcorefree, hD, hfree1, List.length_append,
          List.length_singleton, htake]
        rw [List.reverse_append]
        simp

/-- C6: dispatching any sequence of decoded instructions onto an empty
Active List and then fully draining it by rollback cycles (up to four
entries per cycle, youngest first) restores the register map table to its
state before the first dispatch, and the Free List gains exactly the
physical registers allocated as destinations (the popped free-list prefix),
appended in rollback (youngest-first) order. -/
theorem rollback_inverts_dispatch :
    ∀ (ds : List DecodedInstruction) (s cur s1 : Processor),
      s.dispatch_loop cur ds = some s1 →
      s.active_list = [] →
      (s1.active_list.map (fun e => e.pc)).Pairwise (· ≠ ·) →
      (rollbackDrain s1).register_map_table = s.register_map_table ∧
      (rollbackDrain s1).active_list = [] ∧
      s1.free_list = s.free_list.drop ds.length ∧
      (rollbackDrain s1).free_list =
        s1.free_list ++ (s.free_list.take ds.length).reverse := by
  intro ds s cur s1 h hal hpw
  obtain ⟨hdr, hdf, hdal⟩ := rollback_drain s1.active_list.length s1 rfl hpw
  obtain ⟨hcr, hcfree, hcfold⟩ := dispatch_core_invert ds s cur s1 h hal
  unfold rollbackDrain
  refine ⟨hdr.trans hcr, hdal, hcfree, hdf.trans ?_⟩
  rw [hcfold]

/-- C6 witness: the theorem applied to the single dispatch of `c6_d` from
the initial state. -/
theorem rollback_inverts_dispatch_witness :
    Processor.new.dispatch_loop Processor.new [c6_d] = some c6_s1 ∧
    (rollbackDrain c6_s1).register_map_table =
      Processor.new.register_map_table ∧
    (rollbackDrain c6_s1).active_list = [] ∧
    c6_s1.free_list = Processor.new.free_list.drop 1 ∧
    (rollbackDrain c6_s1).free_list =
      c6_s1.free_list ++ (Processor.new.free_list.take 1).reverse := by
  have hdl : Processor.new.dispatch_loop Processor.new [c6_d] = some c6_s1 :=
    rfl
  have h := rollback_inverts_dispatch [c6_d] Processor.new Processor.new
    c6_s1 hdl rfl (by simp [c6_s1])
  exact ⟨hdl, h.1, h.2.1, h.2.2.1, h.2.2.2⟩

/-- Marking an active-list entry keeps its pc. -/
theorem markEntry_pc (p : Nat) (b : Bool) (e : ActiveListEntry) :
    (markEntry p b e).pc = e.pc := by
  unfold markEntry
  split
  · split <;> rfl
  · rfl

/-- Absorbing one ALU's forwarding into the active list keeps the pc
sequence, the decoded buffer, the pc and the exception flag. -/
theorem update_active_list_frame (s : Processor) (alu : ALU) (t : Processor)
    (h : s.update_active_list alu = some t) :
    t.active_list.map (fun e => e.pc) = s.active_list.map (fun e => e.pc) ∧
    t.decoded_instructions = s.decoded_instructions ∧
    t.pc = s.pc ∧
    t.exception_mode = s.exception_mode := by
  unfold Processor.update_active_list at h
  have hpres := foldlM_option_preserve Processor.commit_entry
    (fun x => x.active_list.map (fun e => e.pc) =
        s.active_list.map (fun e => e.pc) ∧
      x.decoded_instructions = s.decoded_instructions ∧
      x.pc = s.pc ∧
      x.exception_mode = s.exception_mode)
    (fun a e a' hstep hp => by
      rw [commit_entry_frame a a' e hstep]
      exact hp) _ _ _ h
  apply hpres
  refine ⟨?_, rfl, rfl, rfl⟩
  show (s.active_list.map (markEntry alu.forwarding_pc
    alu.forwarding_exception)).map (fun e => e.pc) = _
  rw [List.map_map]
  apply List.map_congr_left
  intro e _
  exact markEntry_pc _ _ e

/-- Polling all forwarding paths into the active list keeps the pc sequence,
the decoded buffer, the pc and the exception flag. -/
theorem read_active_list_fwd_paths_frame (s t : Processor)
    (h : s.read_active_list_fwd_paths = some t) :
    t.active_list.map (fun e => e.pc) = s.active_list.map (fun e => e.pc) ∧
    t.decoded_instructions = s.decoded_instructions ∧
    t.pc = s.pc ∧
    t.exception_mode = s.exception_mode := by
  unfold Processor.read_active_list_fwd_paths at h
  refine foldlM_option_preserve _
    (fun x => x.active_list.map (fun e => e.pc) =
        s.active_list.map (fun e => e.pc) ∧
      x.decoded_instructions = s.decoded_instructions ∧
      x.pc = s.pc ∧
      x.exception_mode = s.exception_mode)
    ?_ _ _ _ h ⟨rfl, rfl, rfl, rfl⟩
  intro a alu a' hstep hp
  by_cases hf : alu.is_forwarding = true
  · rw [if_pos hf] at hstep
    obtain ⟨h1, h2, h3, h4⟩ := update_active_list_frame a alu a' hstep
    exact ⟨h1.trans hp.1, h2.trans hp.2.1, h3.trans hp.2.2.1,
      h4.trans hp.2.2.2⟩
  · rw [if_neg hf] at hstep
    cases Option.some.inj hstep
    exact hp

/-- The commit scan keeps the active list, decoded buffer and pc; the
exception flag is either untouched or raised. -/
theorem commitScan_frame :
    ∀ (l : List ActiveListEntry) (n : Nat) (s : Processor) (pcs : List Nat),
    (commitScan l n s pcs).1.active_list = s.active_list ∧
    (commitScan l n s pcs).1.decoded_instructions = s.decoded_instructions ∧
    (commitScan l n s pcs).1.pc = s.pc ∧
    ((commitScan l n s pcs).1.exception_mode = s.exception_mode ∨
      (commitScan l n s pcs).1.exception_mode = true) := by
  intro l
  induction l with
  | nil => intro n s pcs; exact ⟨rfl, rfl, rfl, Or.inl rfl⟩
  | cons e rest ih =>
    intro n s pcs
    unfold commitScan
    by_cases h4 : n = DECODED_BUFFER_SIZE
    · rw [if_pos h4]
      exact ⟨rfl, rfl, rfl, Or.inl rfl⟩
    · rw [if_neg h4]
      by_cases hexc : e.is_exception = true
      · rw [if_pos hexc]
        exact ⟨rfl, rfl, rfl, Or.inr rfl⟩
      · rw [if_neg hexc]
        by_cases hdone : e.is_done = true
        · rw [if_pos hdone]
          exact ih (n + 1) _ (pcs ++ [e.pc])
        · rw [if_neg hdone]
          exact ⟨rfl, rfl, rfl, Or.inl rfl⟩

/-- `rollbackCore` folds also keep the decoded buffer, pc and exception
flag. -/
theorem rollbackEntries_frame2 (l : List ActiveListEntry) :
    ∀ s : Processor,
    (rollbackEntries s l).decoded_instructions = s.decoded_instructions ∧
    (rollbackEntries s l).pc = s.pc ∧
    (rollbackEntries s l).exception_mode = s.exception_mode := by
  induction l with
  | nil => intro s; exact ⟨rfl, rfl, rfl⟩
  | cons e rest ih =>
    intro s
    unfold rollbackEntries at ih ⊢
    rw [List.foldl_cons]
    exact ih (rollbackCore s e)

/-- The fields of one whole rollback cycle that the C4 invariant needs. -/
theorem rollback_frame (s : Processor) :
    List.Sublist ((s.rollback).active_list.map (fun e => e.pc))
      (s.active_list.map (fun e => e.pc)) ∧
    (s.rollback).decoded_instructions = s.decoded_instructions ∧
    (s.rollback).pc = s.pc ∧
    (s.rollback).exception_mode = s.exception_mode := by
  rw [rollback_eq, removePcs_eq]
  refine ⟨?_, (rollbackEntries_frame2 _ s).1, (rollbackEntries_frame2 _ s).2.1,
    (rollbackEntries_frame2 _ s).2.2⟩
  show List.Sublist (((rollbackEntries s _).active_list.filter _).map
    (fun e => e.pc)) _
  rw [(rollbackEntries_frame _ s).1]
  exact (List.filter_sublist _).map _

/-- The fields of `commit` that the C4 invariant needs. -/
theorem commit_cases (s t : Processor) (h : s.commit = some t) :
    List.Sublist (t.active_list.map (fun e => e.pc))
      (s.active_list.map (fun e => e.pc)) ∧
    t.decoded_instructions = s.decoded_instructions ∧
    t.pc = s.pc ∧
    (s.exception_mode = true →
      t.exception_mode = true ∨ (s.active_list = [] ∧ t.active_list = [])) := by
  unfold Processor.commit at h
  split at h
  · rename_i hexc
    by_cases hal : s.active_list.isEmpty = true
    · rw [if_pos hal] at h
      have hal' : s.active_list = [] := List.isEmpty_iff.mp hal
      rw [rollback_empty ({ s with exception_mode := false } : Processor)
        hal'] at h
      cases Option.some.inj h
      exact ⟨List.Sublist.refl _, rfl, rfl, fun _ => Or.inr ⟨hal', hal'⟩⟩
    · rw [if_neg hal] at h
      cases Option.some.inj h
      obtain ⟨h1, h2, h3, h4⟩ := rollback_frame s
      exact ⟨h1, h2, h3, fun he => Or.inl (h4.trans he)⟩
  · rename_i hexc
    obtain ⟨hs1, hs2, hs3, _⟩ := commitScan_frame s.active_list 0 s []
    obtain ⟨hr1, hr2, hr3, hr4⟩ := read_active_list_fwd_paths_frame _ _ h
    rw [removePcs_eq] at hr1 hr2 hr3
    refine ⟨?_, ?_, ?_, ?_⟩
    · rw [hr1]
      show List.Sublist (((commitScan s.active_list 0 s
        []).1.active_list.filter _).map (fun e => e.pc)) _
      rw [hs1]
      exact (List.filter_sublist _).map _
    · rw [hr2]
      exact hs2
    · rw [hr3]
      exact hs3
    · intro he
      rw [Bool.not_eq_true] at hexc
      exact absurd he (by simp [hexc])

/-- The decoder stamps the fetch pc into the decoded record. -/
theorem decode_pc (i : Instruction) (pc : Nat) (d : DecodedInstruction)
    (h : i.decode pc = some (Except.ok d)) : d.pc = pc := by
  unfold Instruction.decode at h
  repeat' split at h
  all_goals
    first
      | exact Option.noConfusion h
      | exact Except.noConfusion (Option.some.inj h)
      | (cases Except.ok.inj (Option.some.inj h); rfl)

/-- The fetch loop appends consecutively numbered pcs starting at the
current pc, and never grows the decoded buffer beyond its size bound. -/
theorem fetchLoop_spec :
    ∀ (instructions : List Instruction) (s : Processor)
      (r : Processor × List Instruction), fetchLoop s instructions = some r →
    s.pc ≤ r.1.pc ∧
    r.1.decoded_instructions.map (fun d => d.pc) =
      s.decoded_instructions.map (fun d => d.pc) ++
        List.range' s.pc (r.1.pc - s.pc) ∧
    (s.decoded_instructions.length ≤ DECODED_BUFFER_SIZE →
      r.1.decoded_instructions.length ≤ DECODED_BUFFER_SIZE) := by
  intro instructions
  induction instructions with
  | nil =>
    intro s r h
    cases Option.some.inj h
    refine ⟨Nat.le_refl _, ?_, fun hl => hl⟩
    simp
  | cons i rest ih =>
    intro s r h
    unfold fetchLoop at h
    split at h
    · rename_i hlen
      split at h
      · rename_i d hdec
        obtain ⟨ih1, ih2, ih3⟩ := ih _ r h
        have hdpc : d.pc = s.pc := decode_pc i s.pc d hdec
        constructor
        · exact Nat.le_trans (Nat.le_succ _) ih1
        constructor
        · rw [ih2]
          show _ = List.map (fun d => d.pc) s.decoded_instructions ++ _
          rw [List.map_append]
          rw [List.append_assoc]
          congr 1
          show List.map (fun d => d.pc) [d] ++ _ = _
          rw [show List.map (fun d => d.pc) [d] = [s.pc] by simp [hdpc]]
          have hpc1 : s.pc + 1 ≤ r.1.pc := ih1
          have hk : r.1.pc - s.pc = (r.1.pc - (s.pc + 1)) + 1 := by omega
          rw [hk, List.range'_succ]
          rfl
        · intro hlen0
          apply ih3
          show (s.decoded_instructions ++ [d]).length ≤ DECODED_BUFFER_SIZE
          rw [List.length_append, List.length_singleton]
          omega
      · exact Option.noConfusion h
      · exact Option.noConfusion h
    · rename_i hlen
      cases Option.some.inj h
      refine ⟨Nat.le_refl _, by simp, fun hl => hl⟩

/-- The dispatch loop appends the decoded pcs, in order, to the active
list. -/
theorem dispatch_loop_al :
    ∀ (ds : List DecodedInstruction) (s cur s1 : Processor),
      s.dispatch_loop cur ds = some s1 →
      s1.active_list.map (fun e => e.pc) =
        s.active_list.map (fun e => e.pc) ++ ds.map (fun d => d.pc) ∧
      s1.active_list.length = s.active_list.length + ds.length := by
  intro ds
  induction ds with
  | nil =>
    intro s cur s1 h
    unfold Processor.dispatch_loop at h
    rw [List.foldlM_nil] at h
    cases Option.some.inj h
    exact ⟨by simp, rfl⟩
  | cons d rest ih =>
    intro s cur s1 h
    unfold Processor.dispatch_loop at h
    rw [List.foldlM_cons] at h
    cases hx : (s.add_active_list_entry d).add_integer_queue_entry cur d with
    | none => rw [hx] at h; exact Option.noConfusion h
    | some x =>
      rw [hx] at h
      obtain ⟨p, rest', hfree, hAL, _, _, _⟩ := dispatch_step_eq s cur d x hx
      obtain ⟨ih1, ih2⟩ := ih x cur s1 (by
        unfold Processor.dispatch_loop
        exact h)
      constructor
      · rw [ih1, hAL]
        simp
      · rw [ih2, hAL]
        simp
        omega

theorem simInv_new : SimInv Processor.new := by
  refine ⟨?_, ?_, ?_, ?_, ?_, ?_, ?_, ?_⟩ <;> simp [Processor.new]

/-- One cycle preserves the invariant. -/
theorem simInv_preserved {s s' : Processor} {instrs instrs' : List Instruction}
    (hinv : SimInv s) (h : s.propagate instrs = some (s', instrs')) : SimInv s' := by
  unfold Processor.propagate at h
  split at h
  · exact Option.noConfusion h
  · rename_i next1 hcommit
    obtain ⟨hcAL, hcdec, hcpc, hcexc⟩ := commit_cases s next1 hcommit
    have hALpw1 : (next1.active_list.map (fun e => e.pc)).Pairwise (· < ·) :=
      List.Pairwise.sublist hcAL hinv.al_pw
    have hALlen1 : next1.active_list.length ≤ ACTIVE_LIST_SIZE := by
      have hlm := hcAL.length_le
      rw [List.length_map, List.length_map] at hlm
      exact hlm.trans hinv.al_len
    by_cases hexc1 : next1.exception_mode = true
    · -- commit left us (or put us) in exception mode: fetch redirects
      rw [if_neg (by simp [hexc1])] at h
      rcases fetch_and_decode_cases _ _ _ _ h with
        ⟨hb, _⟩ | ⟨_, _, hr⟩ | ⟨_, hne, _⟩
      · exact Bool.noConfusion hb
      · have hs' : s' = { next1.clear_decoded_instructions with
            pc := EXCEPTION_PC } := congrArg Prod.fst hr
        subst hs'
        refine ⟨hALpw1, hALlen1, Nat.zero_le _, ?_, ?_, ?_, ?_, fun _ => rfl⟩ <;>
          intro hx <;>
          exact absurd (show next1.exception_mode = false from hx)
            (by simp [hexc1])
      · rw [hne] at hexc1
        exact absurd hexc1 (by simp)
    · -- normal path: issue, rename/dispatch, fetch
      rw [Bool.not_eq_true] at hexc1
      rw [if_pos (by simp [hexc1])] at h
      have hkey :
          (∀ a ∈ next1.active_list.map (fun e => e.pc), a < s.pc) ∧
          (∀ b ∈ s.decoded_instructions.map (fun d => d.pc), b < s.pc) ∧
          ((s.decoded_instructions.map (fun d => d.pc)).Pairwise (· < ·)) ∧
          (∀ a ∈ next1.active_list.map (fun e => e.pc),
            ∀ b ∈ s.decoded_instructions.map (fun d => d.pc), a < b) := by
        by_cases hse : s.exception_mode = true
        · rcases hcexc hse with hcontra | ⟨hsal, hnal⟩
          · exact absurd hcontra (by simp [hexc1])
          · rw [hnal, hinv.exc_dec hse]
            simp
        · rw [Bool.not_eq_true] at hse
          refine ⟨?_, hinv.dec_pc hse, hinv.dec_pw hse, ?_⟩
          · intro a ha
            exact hinv.al_pc hse a (hcAL.subset ha)
          · intro a ha b hb
            exact hinv.al_dec hse a (hcAL.subset ha) b hb
      obtain ⟨hk_al_pc, hk_dec_pc, hk_dec_pw, hk_cross⟩ := hkey
      split at h
      · exact Option.noConfusion h
      · rename_i ni hissue
        obtain ⟨hiAL, _, hidpcs, hidec, hiexc, _, _, _, hipc, _, _⟩ :=
          issue_frame next1 ni hissue
        split at h
        · exact Option.noConfusion h
        · rename_i rr hren
          rcases rename_and_dispatch_cases ni s rr.1 rr.2 (by rw [← hren]) with
            ⟨hbp, hteq, _⟩ | ⟨hbp, hsuf, s1, hloop, hteq⟩
          · -- backpressure: decoded buffer held, fetch skipped
            rcases fetch_and_decode_cases _ _ _ _ h with
              ⟨_, hr⟩ | ⟨hbf, _, _⟩ | ⟨hbf, _, _⟩
            · have hs' : s' = rr.1 := congrArg Prod.fst hr
              subst hs'
              rw [hteq]
              refine ⟨by rw [hiAL]; exact hALpw1, by rw [hiAL]; exact hALlen1,
                by rw [hidec, hcdec]; exact hinv.dec_len,
                ?_, ?_, ?_, ?_, ?_⟩ <;> intro hx
              · rw [hidec, hcdec]
                exact hk_dec_pw
              · rw [hiAL, hidec, hcdec]
                exact hk_cross
              · rw [hidec, hcdec, hipc, hcpc]
                exact hk_dec_pc
              · rw [hiAL, hipc, hcpc]
                exact hk_al_pc
              · rw [hiexc] at hx
                exact absurd hx (by simp [hexc1])
            · rw [hbf] at hbp
              exact Bool.noConfusion hbp
            · rw [hbf] at hbp
              exact Bool.noConfusion hbp
          · -- dispatch happened, then fetch runs
            obtain ⟨hal1, hlen1⟩ := dispatch_loop_al s.decoded_instructions
              ni s s1 hloop
            obtain ⟨_, _, hfe, _, _, _, hfp, _⟩ :=
              dispatch_loop_frame s s.decoded_instructions ni s1 hloop
            have hsal1 : (s1.active_list.map (fun e => e.pc)).Pairwise
                (· < ·) := by
              rw [hal1, hiAL]
              rw [List.pairwise_append]
              refine ⟨hALpw1, hk_dec_pw, ?_⟩
              intro a ha b hb
              exact hk_cross a ha b hb
            have hsal1_lt : ∀ a ∈ s1.active_list.map (fun e => e.pc),
                a < s.pc := by
              rw [hal1, hiAL]
              intro a ha
              rcases List.mem_append.mp ha with ha | ha
              · exact hk_al_pc a ha
              · exact hk_dec_pc a ha
            have hsal1_len : s1.active_list.length ≤ ACTIVE_LIST_SIZE := by
              rw [hlen1]
              have hres : ni.active_list.length + DECODED_BUFFER_SIZE ≤
                  ACTIVE_LIST_SIZE := by
                unfold Processor.has_sufficient_resources at hsuf
                simp only [Bool.and_eq_true, decide_eq_true_eq] at hsuf
                exact hsuf.1.2
              have hdl : s.decoded_instructions.length ≤
                  DECODED_BUFFER_SIZE := hinv.dec_len
              omega
            rcases fetch_and_decode_cases _ _ _ _ h with
              ⟨hbf, _⟩ | ⟨_, hef, _⟩ | ⟨_, _, hfl⟩
            · rw [hbp] at hbf
              exact Bool.noConfusion hbf
            · rw [hteq] at hef
              have hef' : s1.exception_mode = true := hef
              rw [hfe, hiexc, hexc1] at hef'
              exact Bool.noConfusion hef'
            · -- the fetch loop ran from the cleared decoded buffer
              obtain ⟨hf1, hf2, hf3⟩ := fetchLoop_spec _ _ _ hfl
              obtain ⟨hfAL, hfexc, _, _, _, _, _, _, _, _⟩ :=
                fetchLoop_frame _ _ _ hfl
              have hrr1AL : rr.1.active_list = s1.active_list := by
                rw [hteq]; rfl
              have hrr1dec : rr.1.decoded_instructions = [] := by
                rw [hteq]; rfl
              have hrr1pc : rr.1.pc = s.pc := by
                rw [hteq]
                show s1.pc = s.pc
                rw [hfp, hipc, hcpc]
              have hrr1exc : rr.1.exception_mode = false := by
                rw [hteq]
                show s1.exception_mode = false
                rw [hfe, hiexc]
                exact hexc1
              have hs'exc : s'.exception_mode = false := hfexc.trans hrr1exc
              have hs'AL : s'.active_list = s1.active_list :=
                hfAL.trans hrr1AL
              have hs'dec : s'.decoded_instructions.map (fun d => d.pc) =
                  List.range' s.pc (s'.pc - rr.1.pc) := by
                rw [hf2, hrr1dec, hrr1pc]
                simp
              refine ⟨?_, ?_, ?_, ?_, ?_, ?_, ?_, ?_⟩
              · rw [hs'AL]
                exact hsal1
              · rw [hs'AL]
                exact hsal1_len
              · apply hf3
                rw [hrr1dec]
                simp [DECODED_BUFFER_SIZE]
              · intro _
                rw [hs'dec]
                exact List.pairwise_lt_range' _ _
              · intro _
                rw [hs'AL, hs'dec]
                intro a ha b hb
                have hb' := List.mem_range'_1.mp hb
                exact Nat.lt_of_lt_of_le (hsal1_lt a ha) hb'.1
              · intro _
                rw [hs'dec]
                intro b hb
                have hb' := List.mem_range'_1.mp hb
                have := hf1
                rw [hrr1pc] at this
                omega
              · intro _
                rw [hs'AL]
                intro a ha
                have := hf1
                rw [hrr1pc] at this
                exact Nat.lt_of_lt_of_le (hsal1_lt a ha) this
              · intro hx
                rw [hs'exc] at hx
                exact Bool.noConfusion hx

/-- C4: in every reachable state the Active List stores its entries in
strictly increasing pc (program) order and holds at most 32 entries. -/
theorem active_list_program_order (s : Processor) (h : Reachable s) :
    (s.active_list.map (fun e => e.pc)).Pairwise (· < ·) ∧
    s.active_list.length ≤ ACTIVE_LIST_SIZE := by
  have hinv : SimInv s := by
    induction h with
    | init => exact simInv_new
    | step hr hstep ih => exact simInv_preserved ih hstep
  exact ⟨hinv.al_pw, hinv.al_len⟩

/-- C4 witness: the theorem applied to a concrete reachable state — the
state after one cycle of a two-instruction program. -/
theorem active_list_program_order_witness :
    ((Processor.new.propagate [⟨"addi x1, x0, 2"⟩, ⟨"addi x2, x1, 3"⟩]).map
      (fun r => r.1.active_list.length)) = some 0 ∧
    (Processor.new.active_list.map (fun e => e.pc)).Pairwise (· < ·) ∧
    Processor.new.active_list.length ≤ ACTIVE_LIST_SIZE := by
  refine ⟨rfl, ?_, ?_⟩
  · exact (active_list_program_order Processor.new Reachable.init).1
  · exact (active_list_program_order Processor.new Reachable.init).2
